import Mathlib

/-!
# go-mdtopdf-helper: discovery, path derivation and conversion drivers

A shallow embedding of `main.go`.  Go strings are lists of characters
(`GoString`); the standard-library helpers the program calls
(`strings.HasSuffix`, `strings.TrimSuffix`, `filepath.Ext`,
`os.IsPathSeparator`, `filepath.Walk`) are transcribed from the Go
standard library.  External effects (the converter's I/O, `git add`) are
explicit state-passing functions over a world type `σ`.
-/

namespace MdToPdf

/-- Go strings, as sequences of characters. -/
abbrev GoString := List Char

/-- Go `error` values that are not nil: one made from a message alone
(`errors.New`, or an error of the operating system), or one made by `fmt.Errorf`
with `%w`, which keeps the wrapped cause. -/
inductive GoError where
  | new (msg : GoString)
  | wrap (msg : GoString) (cause : GoError)
  deriving DecidableEq, Repr

/-- The method `Error()`. -/
def GoError.Error : GoError → GoString
  | .new msg => msg
  | .wrap msg _ => msg

/-- The method `Unwrap()`: the wrapped cause, `none` for nil. -/
def GoError.Unwrap : GoError → Option GoError
  | .new _ => none
  | .wrap _ cause => some cause

/-! ## String and path helpers of the Go standard library -/

/-- Go's `os.IsPathSeparator`: `/` everywhere, and also `\` on Windows. -/
def isPathSeparator (windows : Bool) (c : Char) : Bool :=
  c = '/' || (windows && c = '\\')

/-- Go's `strings.HasSuffix(s, suffix)`:
`len(s) >= len(suffix) && s[len(s)-len(suffix):] == suffix`. -/
def HasSuffix (s suffix : GoString) : Bool :=
  decide (s.length ≥ suffix.length) && (s.drop (s.length - suffix.length) == suffix)

/-- Go's `strings.TrimSuffix(s, suffix)`. -/
def TrimSuffix (s suffix : GoString) : GoString :=
  if HasSuffix s suffix then s.take (s.length - suffix.length) else s

/-- The loop of `filepath.Ext`; the argument `k` is `i + 1` for the loop index `i`,
which runs downwards from `len(path) - 1`. -/
def extLoop (windows : Bool) (path : GoString) : Nat → GoString
  | 0 => []
  | i + 1 =>
    if isPathSeparator windows (path.getD i ' ') then []
    else if path.getD i ' ' = '.' then path.drop i
    else extLoop windows path i

/-- Go's `filepath.Ext(path)`. -/
def Ext (windows : Bool) (path : GoString) : GoString :=
  extLoop windows path path.length

/-- The suffix `".md"`. -/
def dotMd : GoString := ['.', 'm', 'd']

/-- The suffix `".markdown"`. -/
def dotMarkdown : GoString := ['.', 'm', 'a', 'r', 'k', 'd', 'o', 'w', 'n']

/-- The suffix `".pdf"`. -/
def dotPdf : GoString := ['.', 'p', 'd', 'f']

/-- The output path of `convertFile` (main.go line 238):
`strings.TrimSuffix(inputFile, filepath.Ext(inputFile)) + ".pdf"`. -/
def outputFile (windows : Bool) (inputFile : GoString) : GoString :=
  TrimSuffix inputFile (Ext windows inputFile) ++ dotPdf

/-- The path staged by `stageGeneratedPDFs` (main.go line 137):
`strings.TrimSuffix(file, filepath.Ext(file)) + ".pdf"`. -/
def pdfFile (windows : Bool) (file : GoString) : GoString :=
  TrimSuffix file (Ext windows file) ++ dotPdf

/-- The selection test of `findMarkdownFiles` and `getStagedMarkdownFiles`:
`strings.HasSuffix(path, ".md") || strings.HasSuffix(path, ".markdown")`. -/
def isMarkdownPath (path : GoString) : Bool :=
  HasSuffix path dotMd || HasSuffix path dotMarkdown

/-! ### The spec's wording of the extension -/

/-- The final path element: the characters after the last path separator. -/
def lastElement (windows : Bool) (path : GoString) : GoString :=
  (path.reverse.takeWhile (fun c => !isPathSeparator windows c)).reverse

/-- The directory part: the path up to and including its last path separator. -/
def dirPart (windows : Bool) (path : GoString) : GoString :=
  path.take (path.length - (lastElement windows path).length)

/-- The extension in the spec's words: the suffix starting at the last `.` of the
final path element, empty if there is none. -/
def extSpec (windows : Bool) (path : GoString) : GoString :=
  let base := lastElement windows path
  if '.' ∈ base then '.' :: (base.reverse.takeWhile (fun c => c ≠ '.')).reverse else []

/-- The scan of `filepath.Ext` over the reversed prefix still to be examined; `suf`
holds the characters already passed. -/
def extRev (windows : Bool) : List Char → GoString → GoString
  | [], _ => []
  | c :: r, suf =>
    if isPathSeparator windows c then []
    else if c = '.' then c :: suf
    else extRev windows r (c :: suf)

/-! ## The program's configuration -/

/-- The struct `Converter` (main.go lines 19-24). -/
structure Converter where
  inputDir : GoString
  recursive : Bool
  parallel : Bool
  hookMode : Bool

/-! ## The file system as `filepath.Walk` sees it -/

/-- What `os.Lstat` and the directory read reveal about one path.  The children of a
directory are listed in the order `readDirNames` yields them, each with the path
`filepath.Join(dir, name)` under which `Walk` presents it. -/
inductive Node where
  | file
  | dir (children : List (GoString × Node))
  | unreadableDir (err : GoError)
  | lstatErr (err : GoError)

/-- The part of `os.FileInfo` the program reads. -/
structure FileInfo where
  isDir : Bool

/-- The call `info.IsDir()`; `none` is the nil `FileInfo` that `Walk` passes together with an
lstat error (the program returns on the error before it reads `info`). -/
def IsDir : Option FileInfo → Bool
  | some info => info.isDir
  | none => false

/-- The non-nil results of a `filepath.WalkFunc`: the two sentinels, or another error. -/
inductive WalkErr where
  | SkipDir
  | SkipAll
  | other (err : GoError)
  deriving DecidableEq

/-- A `filepath.WalkFunc` with its captured variables as explicit state `τ`. -/
abbrev WalkFunc (τ : Type) := τ → GoString → Option FileInfo → Option GoError → τ × Option WalkErr

/-- The result of `os.Lstat` on an entry. -/
def Node.lstat : Node → Option FileInfo
  | .file => some ⟨false⟩
  | .dir _ => some ⟨true⟩
  | .unreadableDir _ => some ⟨true⟩
  | .lstatErr _ => none

mutual
/-- Go's `filepath.walk(path, info, walkFn)`.  For an entry whose lstat failed the callers
call `walkFn(path, nil, err)` in place of `walk`; that call is the last case. -/
def walk {τ : Type} (walkFn : WalkFunc τ) (path : GoString) : Node → τ → τ × Option WalkErr
  | .file, t => walkFn t path (some ⟨false⟩) none
  | .dir children, t =>
    match walkFn t path (some ⟨true⟩) none with
    | (t1, some err1) => (t1, some err1)
    | (t1, none) => walkNames walkFn children t1
  | .unreadableDir err, t => walkFn t path (some ⟨true⟩) (some err)
  | .lstatErr err, t => walkFn t path none (some err)
/-- The loop `for _, name := range names` of `filepath.walk`: it goes on after a
directory that answered `SkipDir` and returns every other error, `SkipAll` included. -/
def walkNames {τ : Type} (walkFn : WalkFunc τ) : List (GoString × Node) → τ → τ × Option WalkErr
  | [], t => (t, none)
  | (filename, node) :: rest, t =>
    match walk walkFn filename node t with
    | (t1, none) => walkNames walkFn rest t1
    | (t1, some err) =>
      match node with
      | .lstatErr _ =>
        if err ≠ .SkipDir then (t1, some err) else walkNames walkFn rest t1
      | _ =>
        if !IsDir node.lstat || err ≠ .SkipDir then (t1, some err)
        else walkNames walkFn rest t1
end

/-- Go's `filepath.Walk(root, fn)`: a sentinel that reaches the top becomes nil. -/
def Walk {τ : Type} (fn : WalkFunc τ) (root : GoString) (node : Node) (t : τ) :
    τ × Option GoError :=
  match walk fn root node t with
  | (t1, none) => (t1, none)
  | (t1, some .SkipDir) => (t1, none)
  | (t1, some .SkipAll) => (t1, none)
  | (t1, some (.other err)) => (t1, some err)

/-! ## Discovery -/

/-- The closure `walkFn` of `findMarkdownFiles` (main.go lines 170-184); the captured
slice `files` is the state. -/
def walkFn (c : Converter) : WalkFunc (List GoString) :=
  fun files path info err =>
    match err with
    | some e => (files, some (.other e))
    | none =>
      if IsDir info && !c.recursive && path != c.inputDir then (files, some .SkipDir)
      else if !IsDir info && (HasSuffix path dotMd || HasSuffix path dotMarkdown) then
        (files ++ [path], none)
      else (files, none)

/-- The method `findMarkdownFiles` (main.go lines 167-191); `root` is what the file system holds
at `c.inputDir`.  On an error the returned slice is nil. -/
def findMarkdownFiles (c : Converter) (root : Node) : List GoString × Option GoError :=
  match Walk (walkFn c) c.inputDir root [] with
  | (_, some err) => ([], some err)
  | (files, none) => (files, none)

/-- A `WalkFunc` that also records every call: the path and the error it was given. -/
def recordingFn {τ : Type} (fn : WalkFunc τ) : WalkFunc (τ × List (GoString × Option GoError)) :=
  fun t path info err =>
    match fn t.1 path info err with
    | (t1, r) => ((t1, t.2 ++ [(path, err)]), r)

/-- The entries of a tree in the order a full traversal visits them, with their paths. -/
def Node.entries (path : GoString) : Node → List (GoString × Node)
  | .dir children => (path, .dir children) :: entriesOf children
  | n => [(path, n)]
where
  /-- The entries below a list of children. -/
  entriesOf : List (GoString × Node) → List (GoString × Node)
    | [] => []
    | (p, n) :: rest => Node.entries p n ++ entriesOf rest

/-- A tree on which neither lstat nor a directory read fails. -/
def Node.readable : Node → Bool
  | .file => true
  | .dir children => readableAll children
  | .unreadableDir _ => false
  | .lstatErr _ => false
where
  /-- All children are readable. -/
  readableAll : List (GoString × Node) → Bool
    | [] => true
    | (_, n) :: rest => Node.readable n && readableAll rest

/-- A non-directory entry: lstat succeeded and `IsDir()` is false. -/
def Node.isFile : Node → Bool
  | .file => true
  | _ => false

/-- The spec's selection over a list of entries: the paths, in the order of the list,
of the non-directory entries whose name (the final element of the path, as
`info.Name()` gives it) ends in `.md` or `.markdown`. -/
def selectedByName (windows : Bool) (es : List (GoString × Node)) : List GoString :=
  (es.filter (fun e => e.2.isFile && isMarkdownPath (lastElement windows e.1))).map Prod.fst

/-- The selection the code makes over a list of entries: the paths of the
non-directory entries whose path ends in `.md` or `.markdown`. -/
def selected (es : List (GoString × Node)) : List GoString :=
  (es.filter (fun e => e.2.isFile && isMarkdownPath e.1)).map Prod.fst

/-- An entry on which neither lstat nor, for a directory, the read of its names
fails. -/
def Node.statOk : Node → Bool
  | .file => true
  | .dir _ => true
  | .unreadableDir _ => false
  | .lstatErr _ => false

/-- How a walk with the recording `WalkFunc` relates to the plain walk `plain` started
with the same slice: same slice, same result, and the calls `new` added to the record
`log` either all carry no error, the walk then returning nil (or `SkipDir`, where
`mayskip` allows it), or end with the first call that carries an error, the walk then
returning that error. -/
def LogSpec (rec : (List GoString × List (GoString × Option GoError)) × Option WalkErr)
    (plain : List GoString × Option WalkErr) (log : List (GoString × Option GoError))
    (mayskip : Bool) : Prop :=
  rec.1.1 = plain.1 ∧ rec.2 = plain.2 ∧ ∃ new, rec.1.2 = log ++ new ∧
    (((∀ q ∈ new, q.2 = none) ∧
        (plain.2 = none ∨ (plain.2 = some .SkipDir ∧ mayskip = true))) ∨
      ∃ pre p e, new = pre ++ [(p, some e)] ∧ (∀ q ∈ pre, q.2 = none) ∧
        plain.2 = some (.other e))

/-- A tree for the examples: `a.md`, a directory named `docs.md` that holds
`x.markdown` and `y.txt`, and `README.MD`. -/
def exampleKids : List (GoString × Node) :=
  [("r/a.md".toList, .file),
   ("r/docs.md".toList,
     .dir [("r/docs.md/x.markdown".toList, .file), ("r/docs.md/y.txt".toList, .file)]),
   ("r/README.MD".toList, .file)]

/-- A tree for the examples: a root that holds `a.md` and a directory that cannot be
read. -/
def brokenKids : List (GoString × Node) :=
  [("r/a.md".toList, .file), ("r/sub".toList, .unreadableDir (.new "permission denied".toList))]

/-- A converter configuration on the root `r`, not in hook mode. -/
def exampleConverter (recursive parallel : Bool) : Converter :=
  ⟨"r".toList, recursive, parallel, false⟩

/-! ## The conversion drivers -/

/-- The text `"failed to convert "`. -/
def msgFailedToConvert : GoString := "failed to convert ".toList

/-- The error `fmt.Errorf("failed to convert %s: %w", file, err)` (main.go lines 202 and 222). -/
def errorfConvert (file : GoString) (err : GoError) : GoError :=
  .wrap (msgFailedToConvert ++ file ++ [':', ' '] ++ err.Error) err

/-- The text `"failed to find markdown files: "`. -/
def msgFailedToFind : GoString := "failed to find markdown files: ".toList

/-- The error `fmt.Errorf("failed to find markdown files: %w", err)` (main.go line 149). -/
def errorfFind (err : GoError) : GoError :=
  .wrap (msgFailedToFind ++ err.Error) err

/-- A call with an effect on the outside world (`convertFile` on an input path,
`git add` on an output path): from the world before the call to the world after it
and the returned error, `none` for nil. -/
abbrev Action (σ : Type) := σ → GoString → σ × Option GoError

/-- The method `convertFilesSerial` (main.go lines 219-226). -/
def convertFilesSerial {σ : Type} (convertFile : Action σ) : List GoString → σ → σ × Option GoError
  | [], s => (s, none)
  | file :: rest, s =>
    match convertFile s file with
    | (s1, some err) => (s1, some (errorfConvert file err))
    | (s1, none) => convertFilesSerial convertFile rest s1

/-- An action that also records each of its invocations: the path it was called on
and what it returned. -/
def recording {σ : Type} (act : Action σ) : Action (σ × List (GoString × Option GoError)) :=
  fun s path =>
    match act s.1 path with
    | (s1, r) => ((s1, s.2 ++ [(path, r)]), r)

/-- What a run leaves behind: the outside world, the lines the driver itself
printed to standard output, and the returned error. -/
structure Outcome (σ : Type) where
  world : σ
  stdout : List GoString
  err : Option GoError

/-- The text `"Warning: Could not stage "`. -/
def msgCouldNotStage : GoString := "Warning: Could not stage ".toList

/-- The method `stageGeneratedPDFs` (main.go lines 135-144); `gitAdd` is the run of
`exec.Command("git", "add", pdfFile)`. -/
def stageGeneratedPDFs {σ : Type} (windows : Bool) (gitAdd : Action σ) :
    List GoString → σ → List GoString → Outcome σ
  | [], s, out => ⟨s, out, none⟩
  | file :: rest, s, out =>
    match gitAdd s (pdfFile windows file) with
    | (s1, some _) =>
      stageGeneratedPDFs windows gitAdd rest s1
        (out ++ [msgCouldNotStage ++ pdfFile windows file ++ ['\n']])
    | (s1, none) => stageGeneratedPDFs windows gitAdd rest s1 out

/-! ## The parallel driver as a machine of interleaved steps

`convertFilesParallel` (main.go lines 193-217) runs the calling goroutine and one
goroutine per file.  A state holds where each of them stands; a step moves one of
them, chosen by the scheduler.  A call of `convertFile` is one step: the driver sees
of it only the returned error.  The record `trace` of what the goroutines did is kept
for the statements only; no step reads it. -/

/-- Where a conversion goroutine (lines 199-204) stands. -/
inductive TaskPc where
  /-- About to call `c.convertFile(f)`. -/
  | start
  /-- The call returned `err != nil` (kept here); about to send the wrapped error. -/
  | failed (err : GoError)
  /-- About to run the deferred `wg.Done()`. -/
  | exiting
  /-- Finished. -/
  | done
  deriving DecidableEq

/-- A conversion goroutine: its argument `f` and where it stands. -/
structure Task where
  file : GoString
  pc : TaskPc
  deriving DecidableEq

/-- Where the calling goroutine stands. -/
inductive MainPc where
  /-- In the loop of lines 197-205, with the files still to be launched. -/
  | spawning (rest : List GoString)
  /-- At `wg.Wait()`. -/
  | waiting
  /-- About to `close(errors)`. -/
  | closing
  /-- In the loop `for err := range errors`. -/
  | draining
  /-- Returned, with the error it returned. -/
  | returned (err : Option GoError)
  deriving DecidableEq

/-- What a goroutine did in one step; the number is the position of its file. -/
inductive Event where
  | call (i : Nat) (file : GoString) (result : Option GoError)
  | send (i : Nat) (err : GoError)
  | exit (i : Nat)
  deriving DecidableEq

/-- The goroutine an event belongs to. -/
def Event.tid : Event → Nat
  | .call i _ _ => i
  | .send i _ => i
  | .exit i => i

/-- The state of a parallel run. -/
structure PState (σ : Type) where
  /-- The outside world the converter acts on. -/
  world : σ
  main : MainPc
  /-- The goroutines launched so far, in launch order. -/
  tasks : List Task
  /-- The counter of the `sync.WaitGroup`. -/
  wg : Nat
  /-- The buffer of the channel `errors`, oldest value first; `none` is a nil error. -/
  errors : List (Option GoError)
  /-- The capacity of the channel `errors`. -/
  cap : Nat
  /-- Whether `errors` is closed. -/
  closed : Bool
  /-- What the goroutines did so far, oldest first. -/
  trace : List Event

/-- The state after `errors := make(chan error, len(files))`, at the top of the loop. -/
def initPar {σ : Type} (files : List GoString) (s : σ) : PState σ :=
  { world := s, main := .spawning files, tasks := [], wg := 0, errors := [],
    cap := files.length, closed := false, trace := [] }

/-- One step of the calling goroutine; `none` when it cannot move (blocked or returned). -/
def stepMain {σ : Type} (st : PState σ) : Option (PState σ) :=
  match st.main with
  | .spawning [] => some { st with main := .waiting }
  | .spawning (file :: rest) =>
    -- wg.Add(1); go func(f string) { ... }(file)
    some { st with main := .spawning rest, tasks := st.tasks ++ [⟨file, .start⟩], wg := st.wg + 1 }
  | .waiting => if st.wg = 0 then some { st with main := .closing } else none
  | .closing => some { st with main := .draining, closed := true }
  | .draining =>
    match st.errors with
    | [] => if st.closed then some { st with main := .returned none } else none
    | some err :: rest => some { st with main := .returned (some err), errors := rest }
    | none :: rest => some { st with errors := rest }
  | .returned _ => none

/-- One step of the goroutine launched for the `i`-th file; `none` when it cannot
move: not launched, finished, blocked on a full channel, or `wg.Done()` on a zero
counter. -/
def stepTask {σ : Type} (convertFile : Action σ) (st : PState σ) (i : Nat) : Option (PState σ) :=
  match st.tasks[i]? with
  | none => none
  | some t =>
    match t.pc with
    | .start =>
      match convertFile st.world t.file with
      | (w1, some err) =>
        some { st with world := w1, tasks := st.tasks.set i ⟨t.file, .failed err⟩,
                       trace := st.trace ++ [.call i t.file (some err)] }
      | (w1, none) =>
        some { st with world := w1, tasks := st.tasks.set i ⟨t.file, .exiting⟩,
                       trace := st.trace ++ [.call i t.file none] }
    | .failed err =>
      if st.errors.length < st.cap ∧ st.closed = false then
        some { st with errors := st.errors ++ [some (errorfConvert t.file err)],
                       tasks := st.tasks.set i ⟨t.file, .exiting⟩,
                       trace := st.trace ++ [.send i (errorfConvert t.file err)] }
      else none
    | .exiting =>
      if 0 < st.wg then
        some { st with wg := st.wg - 1, tasks := st.tasks.set i ⟨t.file, .done⟩,
                       trace := st.trace ++ [.exit i] }
      else none
    | .done => none

/-- One step of the goroutine the scheduler picks: `0` is the calling goroutine,
`i + 1` the goroutine of the `i`-th file. -/
def step {σ : Type} (convertFile : Action σ) (st : PState σ) : Nat → Option (PState σ)
  | 0 => stepMain st
  | i + 1 => stepTask convertFile st i

/-- The steps of a schedule, one after the other; `none` when the schedule picks a
goroutine that cannot move. -/
def runSched {σ : Type} (convertFile : Action σ) : List Nat → PState σ → Option (PState σ)
  | [], st => some st
  | tid :: sched, st =>
    match step convertFile st tid with
    | none => none
    | some st1 => runSched convertFile sched st1

/-- The method `convertFilesParallel` under a schedule: the world and the returned error once
the calling goroutine has returned; `none` for a schedule that is not a complete run. -/
def convertFilesParallel {σ : Type} (convertFile : Action σ) (files : List GoString)
    (sched : List Nat) (s : σ) : Option (σ × Option GoError) :=
  match runSched convertFile sched (initPar files s) with
  | none => none
  | some st =>
    match st.main with
    | .returned err => some (st.world, err)
    | _ => none

/-- The method `convertFiles` (main.go lines 160-165). -/
def convertFiles {σ : Type} (c : Converter) (convertFile : Action σ) (files : List GoString)
    (sched : List Nat) (s : σ) : Option (σ × Option GoError) :=
  if c.parallel then convertFilesParallel convertFile files sched s
  else some (convertFilesSerial convertFile files s)

/-- The line `"No markdown files found"`. -/
def msgNoFiles : GoString := "No markdown files found".toList

/-- The method `Run` (main.go lines 146-158); `root` is what the file system holds at
`c.inputDir`, `sched` the schedule of a parallel conversion. -/
def Run {σ : Type} (c : Converter) (root : Node) (convertFile : Action σ) (sched : List Nat)
    (s : σ) : Option (Outcome σ) :=
  match findMarkdownFiles c root with
  | (_, some err) => some ⟨s, [], some (errorfFind err)⟩
  | (files, none) =>
    if files.length = 0 then some ⟨s, [msgNoFiles], none⟩
    else
      match convertFiles c convertFile files sched s with
      | none => none
      | some (s1, err) => some ⟨s1, [], err⟩

/-! ## Hook mode -/

/-- The line `"Skipping PDF conversion"`. -/
def msgSkipping : GoString := "Skipping PDF conversion".toList

/-- The text `"failed to get staged files: "`. -/
def msgFailedToGetStaged : GoString := "failed to get staged files: ".toList

/-- The method `runAsHook` (main.go lines 78-102); `confirm` is the answer of
`confirmConversion`, `staged` what `getStagedMarkdownFiles` returns. -/
def runAsHook {σ : Type} (c : Converter) (windows : Bool) (confirm : Bool)
    (staged : List GoString × Option GoError) (convertFile gitAdd : Action σ)
    (sched : List Nat) (s : σ) : Option (Outcome σ) :=
  if !confirm then some ⟨s, [msgSkipping], none⟩
  else
    match staged with
    | (_, some err) => some ⟨s, [], some (.wrap (msgFailedToGetStaged ++ err.Error) err)⟩
    | (files, none) =>
      if files.length = 0 then some ⟨s, [], none⟩
      else
        match convertFiles c convertFile files sched s with
        | none => none
        | some (s1, some err) => some ⟨s1, [], some err⟩
        | some (s1, none) => some (stageGeneratedPDFs windows gitAdd files s1 [])

/-! ### What holds in every reachable state of the parallel machine -/

/-- The events of goroutine `i` in a trace, oldest first. -/
def eventsOf (i : Nat) (tr : List Event) : List Event :=
  tr.filter (fun ev => ev.tid == i)

/-- The errors sent to the channel, in the order of sending, each with its sender. -/
def sends (tr : List Event) : List (Nat × GoError) :=
  tr.filterMap (fun ev => match ev with
    | .send i err => some (i, err)
    | _ => none)

/-- Whether an event is a call of `convertFile`. -/
def Event.isCall : Event → Bool
  | .call _ _ _ => true
  | _ => false

/-- Whether an event is a send to the channel. -/
def Event.isSend : Event → Bool
  | .send _ _ => true
  | _ => false

/-- One for a goroutine that has not finished, zero for a finished one. -/
def livePc : TaskPc → Nat
  | .done => 0
  | _ => 1

/-- One for a goroutine that is past its send statement, zero before it. -/
def settledPc : TaskPc → Nat
  | .exiting => 1
  | .done => 1
  | _ => 0

/-- The number of steps a goroutine can still take, at most. -/
def taskMeasure : TaskPc → Nat
  | .start => 4
  | .failed _ => 3
  | .exiting => 1
  | .done => 0

/-- The sum of a weight over the goroutines. -/
def total (f : TaskPc → Nat) (tasks : List Task) : Nat :=
  (tasks.map (fun t => f t.pc)).sum

/-- A bound on the steps the calling goroutine and the goroutines it still has to
launch can take. -/
def mainMeasure : MainPc → Nat
  | .spawning rest => 5 * rest.length + 4
  | .waiting => 3
  | .closing => 2
  | .draining => 1
  | .returned _ => 0

/-- A bound on the number of steps a state can still take. -/
def stepsLeft {σ : Type} (st : PState σ) : Nat :=
  mainMeasure st.main + total taskMeasure st.tasks + st.errors.length

/-- The files the calling goroutine still has to launch. -/
def remaining : MainPc → List GoString
  | .spawning rest => rest
  | _ => []

/-- What a goroutine for `file` at `pc` has done so far, given its events `evs`. -/
def TaskEvents (i : Nat) (file : GoString) (evs : List Event) : TaskPc → Prop
  | .start => evs = []
  | .failed err => evs = [.call i file (some err)]
  | .exiting =>
    evs = [.call i file none] ∨
      ∃ err, evs = [.call i file (some err), .send i (errorfConvert file err)]
  | .done =>
    evs = [.call i file none, .exit i] ∨
      ∃ err, evs = [.call i file (some err), .send i (errorfConvert file err), .exit i]

/-- What the position of the calling goroutine tells about the channel and the
counter. -/
def MainInv {σ : Type} (st : PState σ) : Prop :=
  match st.main with
  | .spawning _ =>
    st.closed = false ∧ st.errors = (sends st.trace).map (fun x => some x.2)
  | .waiting =>
    st.closed = false ∧ st.errors = (sends st.trace).map (fun x => some x.2)
  | .closing =>
    st.closed = false ∧ st.errors = (sends st.trace).map (fun x => some x.2) ∧ st.wg = 0
  | .draining =>
    st.closed = true ∧ st.errors = (sends st.trace).map (fun x => some x.2) ∧ st.wg = 0
  | .returned r => st.wg = 0 ∧ r = (sends st.trace).head?.map Prod.snd

/-- The invariant of the parallel machine for the file list `files`. -/
structure Inv {σ : Type} (files : List GoString) (st : PState σ) : Prop where
  cap_eq : st.cap = files.length
  files_eq : st.tasks.map Task.file ++ remaining st.main = files
  task_inv : ∀ i t, st.tasks[i]? = some t → TaskEvents i t.file (eventsOf i st.trace) t.pc
  tid_lt : ∀ ev ∈ st.trace, ev.tid < st.tasks.length
  wg_eq : st.wg = total livePc st.tasks
  sends_le : (sends st.trace).length ≤ total settledPc st.tasks
  errors_le : st.errors.length ≤ (sends st.trace).length
  main_inv : MainInv st

/-- The program counter of a goroutine after `convertFile` returned `r`. -/
def pcAfter : Option GoError → TaskPc
  | some err => .failed err
  | none => .exiting

/-- A converter for the examples: it fails on `b.md` and on nothing else. -/
def exampleConvert : Action Unit :=
  fun s f => (s, if f = "b.md".toList then some (.new "boom".toList) else none)

/-- The file list of the examples. -/
def exampleFiles : List GoString := ["a.md".toList, "b.md".toList]

/-- The error `exampleConvert` returns on `b.md`. -/
def exampleBoom : GoError := .new "boom".toList

/-- The state of the example after both goroutines were launched and the one for
`b.md` has called the converter, which failed: it is about to send. -/
def exampleState : PState Unit :=
  { world := (), main := .spawning [],
    tasks := [⟨"a.md".toList, .start⟩, ⟨"b.md".toList, .failed exampleBoom⟩],
    wg := 2, errors := [], cap := 2, closed := false,
    trace := [.call 1 "b.md".toList (some exampleBoom)] }

/-- The calls of `convertFile` in a trace, oldest first: the file and the result. -/
def callsLog (tr : List Event) : List (GoString × Option GoError) :=
  tr.filterMap (fun ev => match ev with
    | .call _ file r => some (file, r)
    | _ => none)

/-- Whether a goroutine is past its call of `convertFile`. -/
def startedPc : TaskPc → Bool
  | .start => false
  | _ => true

/-- The files of the goroutines that are past their call of `convertFile`. -/
def startedFiles (tasks : List Task) : List GoString :=
  tasks.filterMap (fun t => if startedPc t.pc then some t.file else none)

/-- A state of the machine run with a recording converter, without the record. -/
def PState.forget {σ : Type} (st : PState (σ × List (GoString × Option GoError))) : PState σ :=
  { world := st.world.1, main := st.main, tasks := st.tasks, wg := st.wg,
    errors := st.errors, cap := st.cap, closed := st.closed, trace := st.trace }

/-! ## Lemmas on the string helpers -/

theorem extLoop_eq_extRev (w : Bool) (path : GoString) :
    ∀ k, k ≤ path.length →
      extLoop w path k = extRev w (path.take k).reverse (path.drop k) := by
  intro k
  induction k with
  | zero => intro _; simp [extLoop, extRev]
  | succ i ih =>
    intro hk
    have hi : i < path.length := hk
    have htake : (path.take (i + 1)).reverse = path[i] :: (path.take i).reverse := by
      rw [List.take_succ]
      simp [List.getElem?_eq_getElem hi]
    have hdrop : path.drop i = path[i] :: path.drop (i + 1) := by
      simp
    have hget : path.getD i ' ' = path[i] := by
      simp [List.getD_eq_getElem?_getD, List.getElem?_eq_getElem hi]
    rw [extLoop, htake, extRev, hget, ih (Nat.le_of_lt hi), hdrop]

theorem Ext_eq_extRev (w : Bool) (path : GoString) :
    Ext w path = extRev w path.reverse [] := by
  unfold Ext
  rw [extLoop_eq_extRev w path path.length (Nat.le_refl _)]
  simp

theorem extRev_spec (w : Bool) :
    ∀ (r : List Char) (suf : GoString),
      extRev w r suf =
        if '.' ∈ r.takeWhile (fun c => !isPathSeparator w c) then
          '.' :: (((r.takeWhile (fun c => !isPathSeparator w c)).takeWhile
            (fun c => c ≠ '.')).reverse ++ suf)
        else [] := by
  intro r
  induction r with
  | nil => intro suf; simp [extRev]
  | cons c r ih =>
    intro suf
    by_cases hs : isPathSeparator w c = true
    · simp [extRev, hs, List.takeWhile_cons]
    · by_cases hd : c = '.'
      · subst hd
        simp [extRev, hs, List.takeWhile_cons]
      · have hd2 : ¬ ('.' = c) := fun h => hd h.symm
        simp [extRev, hs, hd, hd2, List.takeWhile_cons, ih]

theorem extRev_suffix (w : Bool) :
    ∀ (r : List Char) (suf : GoString),
      extRev w r suf = [] ∨ ∃ a b, r.reverse = a ++ b ∧ extRev w r suf = b ++ suf := by
  intro r
  induction r with
  | nil => intro suf; exact Or.inl rfl
  | cons c r ih =>
    intro suf
    by_cases hs : isPathSeparator w c = true
    · left; simp [extRev, hs]
    · by_cases hd : c = '.'
      · right
        subst hd
        refine ⟨r.reverse, ['.'], by simp, ?_⟩
        simp [extRev, hs]
      · rcases ih (c :: suf) with h | ⟨a, b, hab, h⟩
        · left; simp [extRev, hs, hd, h]
        · right
          refine ⟨a, b ++ [c], by simp [hab], ?_⟩
          simp [extRev, hs, hd, h]

theorem extRev_noSep (w : Bool) :
    ∀ (r : List Char) (suf : GoString) (c : Char),
      c ∈ extRev w r suf → c ∈ suf ∨ isPathSeparator w c = false := by
  intro r
  induction r with
  | nil => intro suf c h; simp [extRev] at h
  | cons d r ih =>
    intro suf c h
    by_cases hs : isPathSeparator w d = true
    · simp [extRev, hs] at h
    · by_cases hd : d = '.'
      · subst hd
        have hs2 : isPathSeparator w '.' = false := by simpa using hs
        rw [extRev, hs2] at h
        simp only [Bool.false_eq_true, if_false, if_true, List.mem_cons] at h
        rcases h with h | h
        · right; rw [h]; exact hs2
        · exact Or.inl h
      · simp only [extRev, hs, hd] at h
        simp at h
        rcases ih (d :: suf) c h with h1 | h1
        · simp at h1
          rcases h1 with h1 | h1
          · right; rw [h1]; simpa using hs
          · exact Or.inl h1
        · exact Or.inr h1

/-- The extension is a suffix of the path. -/
theorem Ext_suffix (w : Bool) (p : GoString) : ∃ stem, p = stem ++ Ext w p := by
  rw [Ext_eq_extRev]
  rcases extRev_suffix w p.reverse [] with h | ⟨a, b, hab, h⟩
  · exact ⟨p, by simp [h]⟩
  · refine ⟨a, ?_⟩
    rw [h]
    simpa using hab

/-- No character of the extension is a path separator. -/
theorem Ext_noSep (w : Bool) (p : GoString) :
    ∀ c ∈ Ext w p, isPathSeparator w c = false := by
  intro c hc
  rw [Ext_eq_extRev] at hc
  rcases extRev_noSep w p.reverse [] c hc with h | h
  · simp at h
  · exact h

theorem HasSuffix_append (a b : GoString) : HasSuffix (a ++ b) b = true := by
  simp [HasSuffix]

theorem HasSuffix_iff (s suf : GoString) : HasSuffix s suf = true ↔ ∃ a, s = a ++ suf := by
  constructor
  · intro h
    simp only [HasSuffix, Bool.and_eq_true, decide_eq_true_eq, beq_iff_eq] at h
    refine ⟨s.take (s.length - suf.length), ?_⟩
    conv_lhs => rw [← List.take_append_drop (s.length - suf.length) s]
    rw [h.2]
  · rintro ⟨a, rfl⟩
    exact HasSuffix_append a suf

theorem TrimSuffix_append (a b : GoString) : TrimSuffix (a ++ b) b = a := by
  simp [TrimSuffix, HasSuffix_append]

theorem Ext_eq_extSpec (w : Bool) (p : GoString) : Ext w p = extSpec w p := by
  rw [Ext_eq_extRev, extRev_spec]
  simp [extSpec, lastElement]

theorem Ext_dotMd (w : Bool) (s : GoString) : Ext w (s ++ dotMd) = dotMd := by
  rw [Ext_eq_extRev]
  cases w <;> simp [dotMd, extRev, isPathSeparator]

theorem Ext_dotMarkdown (w : Bool) (s : GoString) :
    Ext w (s ++ dotMarkdown) = dotMarkdown := by
  rw [Ext_eq_extRev]
  cases w <;> simp [dotMarkdown, extRev, isPathSeparator]

theorem outputFile_dotMd (w : Bool) (s : GoString) :
    outputFile w (s ++ dotMd) = s ++ dotPdf := by
  rw [outputFile, Ext_dotMd, TrimSuffix_append]

theorem outputFile_dotMarkdown (w : Bool) (s : GoString) :
    outputFile w (s ++ dotMarkdown) = s ++ dotPdf := by
  rw [outputFile, Ext_dotMarkdown, TrimSuffix_append]

theorem dirPart_eq (w : Bool) (p : GoString) :
    dirPart w p = (p.reverse.dropWhile (fun c => !isPathSeparator w c)).reverse := by
  have key : ∀ t d : List Char,
      List.take ((t ++ d).reverse.length - t.reverse.length) (t ++ d).reverse = d.reverse := by
    intro t d
    simp
  have h := key (p.reverse.takeWhile (fun c => !isPathSeparator w c))
    (p.reverse.dropWhile (fun c => !isPathSeparator w c))
  rw [List.takeWhile_append_dropWhile, List.reverse_reverse] at h
  exact h

theorem dropWhile_append_of_all {α : Type} (f : α → Bool) :
    ∀ (a b : List α), (∀ x ∈ a, f x = true) → (a ++ b).dropWhile f = b.dropWhile f := by
  intro a
  induction a with
  | nil => intro b _; rfl
  | cons x a ih =>
    intro b h
    have hx : f x = true := h x (List.mem_cons_self x a)
    simp only [List.cons_append, List.dropWhile_cons, hx, if_true]
    exact ih b (fun y hy => h y (List.mem_cons_of_mem x hy))

theorem dirPart_append_noSep (w : Bool) (a e : GoString)
    (h : ∀ c ∈ e, isPathSeparator w c = false) : dirPart w (a ++ e) = dirPart w a := by
  rw [dirPart_eq, dirPart_eq, List.reverse_append, dropWhile_append_of_all]
  intro x hx
  simp [h x (List.mem_reverse.mp hx)]

theorem dotPdf_noSep (w : Bool) : ∀ c ∈ dotPdf, isPathSeparator w c = false := by
  cases w <;> simp [dotPdf, isPathSeparator]

theorem dirPart_outputFile (w : Bool) (p : GoString) :
    dirPart w (outputFile w p) = dirPart w p := by
  obtain ⟨stem, hstem⟩ := Ext_suffix w p
  have h1 : outputFile w p = stem ++ dotPdf := by
    unfold outputFile
    conv_lhs => lhs; lhs; rw [hstem]
    rw [TrimSuffix_append]
  rw [h1, dirPart_append_noSep w stem dotPdf (dotPdf_noSep w)]
  conv_rhs => rw [hstem]
  rw [dirPart_append_noSep w stem (Ext w p) (Ext_noSep w p)]

/-! ## Output path derivation -/

/-- C5: for every input path `p`, the output path of `convertFile` is `p` with its
extension removed and `.pdf` appended, where the extension that `filepath.Ext`
computes is the suffix starting at the last `.` of the final path element (empty if
there is none); `s.md` and `s.markdown` both map to `s.pdf`, a path without an
extension maps to `p.pdf`, and the directory part is unchanged. -/
theorem outputFile_derivation (w : Bool) (p : GoString) :
    Ext w p = extSpec w p ∧
    (∃ stem, p = stem ++ extSpec w p ∧ outputFile w p = stem ++ dotPdf) ∧
    (∀ s, outputFile w (s ++ dotMd) = s ++ dotPdf) ∧
    (∀ s, outputFile w (s ++ dotMarkdown) = s ++ dotPdf) ∧
    (extSpec w p = [] → outputFile w p = p ++ dotPdf) ∧
    dirPart w (outputFile w p) = dirPart w p := by
  have hstem : ∃ stem, p = stem ++ extSpec w p ∧ outputFile w p = stem ++ dotPdf := by
    obtain ⟨stem, hstem⟩ := Ext_suffix w p
    refine ⟨stem, by rw [← Ext_eq_extSpec]; exact hstem, ?_⟩
    unfold outputFile
    conv_lhs => lhs; lhs; rw [hstem]
    rw [TrimSuffix_append]
  refine ⟨Ext_eq_extSpec w p, hstem, outputFile_dotMd w, outputFile_dotMarkdown w, ?_,
    dirPart_outputFile w p⟩
  intro h0
  obtain ⟨stem, h1, h2⟩ := hstem
  rw [h0, List.append_nil] at h1
  rw [h2, h1]

/-- C5 at `docs/readme` on a system whose only separator is `/`: no extension, so
`.pdf` is appended. -/
theorem outputFile_derivation_witness :
    extSpec false "docs/readme".toList = [] ∧
    outputFile false "docs/readme".toList = "docs/readme".toList ++ dotPdf :=
  ⟨by decide, (outputFile_derivation false "docs/readme".toList).2.2.2.2.1 (by decide)⟩

/-! ## One artifact per input -/

/-- C8 as stated fails: the distinct inputs `a.md` and `a.markdown`, both of which
discovery selects, derive the same output path `a.pdf`. -/
theorem outputFile_collision :
    ¬ (∀ (w : Bool) (p q : GoString), isMarkdownPath p = true → isMarkdownPath q = true →
        p ≠ q → outputFile w p ≠ outputFile w q) := by
  intro h
  exact h false "a.md".toList "a.markdown".toList (by decide) (by decide) (by decide)
    (by decide)

/-- C8 amended: two distinct inputs ending in `.md` or `.markdown` derive distinct
output paths unless one is `s.md` and the other `s.markdown` for the same stem `s`;
every such pair derives the same output path `s.pdf`. -/
theorem outputFile_distinct (w : Bool) :
    (∀ p q : GoString, isMarkdownPath p = true → isMarkdownPath q = true → p ≠ q →
      outputFile w p = outputFile w q →
      ∃ s, (p = s ++ dotMd ∧ q = s ++ dotMarkdown) ∨ (p = s ++ dotMarkdown ∧ q = s ++ dotMd)) ∧
    (∀ s : GoString, s ++ dotMd ≠ s ++ dotMarkdown ∧
      outputFile w (s ++ dotMd) = s ++ dotPdf ∧
      outputFile w (s ++ dotMarkdown) = s ++ dotPdf) := by
  constructor
  · intro p q hp hq hne heq
    simp only [isMarkdownPath, Bool.or_eq_true, HasSuffix_iff] at hp hq
    rcases hp with ⟨a, rfl⟩ | ⟨a, rfl⟩ <;> rcases hq with ⟨b, rfl⟩ | ⟨b, rfl⟩ <;>
      simp only [outputFile_dotMd, outputFile_dotMarkdown, List.append_cancel_right_eq] at heq
    · exact absurd (by rw [heq]) hne
    · exact ⟨b, Or.inl ⟨by rw [heq], rfl⟩⟩
    · exact ⟨b, Or.inr ⟨by rw [heq], rfl⟩⟩
    · exact absurd (by rw [heq]) hne
  · intro s
    refine ⟨?_, outputFile_dotMd w s, outputFile_dotMarkdown w s⟩
    simp [dotMd, dotMarkdown]

/-- C8 amended, at the colliding pair `a.md` and `a.markdown`: the two inputs share
a stem and differ only in the suffix. -/
theorem outputFile_distinct_witness :
    ∃ s, ("a.md".toList = s ++ dotMd ∧ "a.markdown".toList = s ++ dotMarkdown) ∨
      ("a.md".toList = s ++ dotMarkdown ∧ "a.markdown".toList = s ++ dotMd) :=
  (outputFile_distinct false).1 "a.md".toList "a.markdown".toList (by decide) (by decide)
    (by decide) (by decide)

/-! ## The serial driver -/

theorem convertFilesSerial_recording {σ : Type} (convertFile : Action σ) :
    ∀ (files : List GoString) (s : σ) (log : List (GoString × Option GoError)),
      ∃ new,
        (convertFilesSerial (recording convertFile) files (s, log)).1.1 =
          (convertFilesSerial convertFile files s).1 ∧
        (convertFilesSerial (recording convertFile) files (s, log)).2 =
          (convertFilesSerial convertFile files s).2 ∧
        (convertFilesSerial (recording convertFile) files (s, log)).1.2 = log ++ new ∧
        (((convertFilesSerial convertFile files s).2 = none ∧
            new = files.map (fun f => (f, none))) ∨
          ∃ pre file post cause,
            files = pre ++ file :: post ∧
            new = pre.map (fun f => (f, none)) ++ [(file, some cause)] ∧
            (convertFilesSerial convertFile files s).2 = some (errorfConvert file cause)) := by
  intro files
  induction files with
  | nil =>
    intro s log
    exact ⟨[], rfl, rfl, by simp [convertFilesSerial], Or.inl ⟨rfl, rfl⟩⟩
  | cons file rest ih =>
    intro s log
    cases hc : convertFile s file with
    | mk s1 r =>
      cases r with
      | some err =>
        refine ⟨[(file, some err)], ?_, ?_, ?_, Or.inr ⟨[], file, rest, err, rfl, rfl, ?_⟩⟩ <;>
          simp [convertFilesSerial, recording, hc]
      | none =>
        obtain ⟨new, h1, h2, h3, h4⟩ := ih s1 (log ++ [(file, none)])
        have hrec : convertFilesSerial (recording convertFile) (file :: rest) (s, log) =
            convertFilesSerial (recording convertFile) rest (s1, log ++ [(file, none)]) := by
          simp [convertFilesSerial, recording, hc]
        have hpl : convertFilesSerial convertFile (file :: rest) s =
            convertFilesSerial convertFile rest s1 := by
          simp [convertFilesSerial, hc]
        refine ⟨(file, none) :: new, ?_, ?_, ?_, ?_⟩
        · rw [hrec, hpl]; exact h1
        · rw [hrec, hpl]; exact h2
        · rw [hrec, h3]; simp
        · rw [hpl]
          rcases h4 with ⟨h4a, h4b⟩ | ⟨pre, f, post, cause, h4a, h4b, h4c⟩
          · exact Or.inl ⟨h4a, by simp [h4b]⟩
          · exact Or.inr ⟨file :: pre, f, post, cause, by simp [h4a], by simp [h4b], h4c⟩

/-- C1: the serial driver converts the files one at a time in list order.  The record
of the converter's invocations is either the whole list, every call returning nil,
and the driver returns nil; or it is the files up to the first failing one, every
earlier call returning nil, and the driver returns
`failed to convert <file>: <cause>` wrapping the cause, no file after it being
converted.  Recording the invocations changes neither the result nor the world. -/
theorem convertFilesSerial_contract {σ : Type} (convertFile : Action σ)
    (files : List GoString) (s : σ) :
    (convertFilesSerial (recording convertFile) files (s, [])).1.1 =
        (convertFilesSerial convertFile files s).1 ∧
    (convertFilesSerial (recording convertFile) files (s, [])).2 =
        (convertFilesSerial convertFile files s).2 ∧
    (((convertFilesSerial convertFile files s).2 = none ∧
        (convertFilesSerial (recording convertFile) files (s, [])).1.2 =
          files.map (fun f => (f, none))) ∨
      ∃ pre file post cause,
        files = pre ++ file :: post ∧
        (convertFilesSerial (recording convertFile) files (s, [])).1.2 =
          pre.map (fun f => (f, none)) ++ [(file, some cause)] ∧
        (convertFilesSerial convertFile files s).2 = some (errorfConvert file cause) ∧
        (errorfConvert file cause).Error =
          msgFailedToConvert ++ file ++ [':', ' '] ++ cause.Error ∧
        (errorfConvert file cause).Unwrap = some cause) := by
  obtain ⟨new, h1, h2, h3, h4⟩ := convertFilesSerial_recording convertFile files s []
  refine ⟨h1, h2, ?_⟩
  rw [h3, List.nil_append]
  rcases h4 with h4 | ⟨pre, file, post, cause, h4a, h4b, h4c⟩
  · exact Or.inl h4
  · exact Or.inr ⟨pre, file, post, cause, h4a, h4b, h4c, rfl, rfl⟩

/-! ## Staging in hook mode -/

theorem stageGeneratedPDFs_recording {σ : Type} (w : Bool) (gitAdd : Action σ) :
    ∀ (files : List GoString) (s : σ) (log : List (GoString × Option GoError))
      (out : List GoString),
      (stageGeneratedPDFs w (recording gitAdd) files (s, log) out).err = none ∧
      (stageGeneratedPDFs w gitAdd files s out).err = none ∧
      (stageGeneratedPDFs w (recording gitAdd) files (s, log) out).world.1 =
        (stageGeneratedPDFs w gitAdd files s out).world ∧
      (stageGeneratedPDFs w (recording gitAdd) files (s, log) out).world.2.map Prod.fst =
        log.map Prod.fst ++ files.map (outputFile w) := by
  intro files
  induction files with
  | nil => intro s log out; simp [stageGeneratedPDFs]
  | cons file rest ih =>
    intro s log out
    cases hc : gitAdd s (pdfFile w file) with
    | mk s1 r =>
      have hpath : pdfFile w file = outputFile w file := rfl
      cases r with
      | some err =>
        have h := ih s1 (log ++ [(pdfFile w file, some err)])
          (out ++ [msgCouldNotStage ++ pdfFile w file ++ ['\n']])
        have hrec : stageGeneratedPDFs w (recording gitAdd) (file :: rest) (s, log) out =
            stageGeneratedPDFs w (recording gitAdd) rest
              (s1, log ++ [(pdfFile w file, some err)])
              (out ++ [msgCouldNotStage ++ pdfFile w file ++ ['\n']]) := by
          simp [stageGeneratedPDFs, recording, hc]
        have hpl : stageGeneratedPDFs w gitAdd (file :: rest) s out =
            stageGeneratedPDFs w gitAdd rest s1
              (out ++ [msgCouldNotStage ++ pdfFile w file ++ ['\n']]) := by
          simp [stageGeneratedPDFs, hc]
        rw [hrec, hpl]
        refine ⟨h.1, h.2.1, h.2.2.1, ?_⟩
        rw [h.2.2.2]
        simp [hpath]
      | none =>
        have h := ih s1 (log ++ [(pdfFile w file, none)]) out
        have hrec : stageGeneratedPDFs w (recording gitAdd) (file :: rest) (s, log) out =
            stageGeneratedPDFs w (recording gitAdd) rest
              (s1, log ++ [(pdfFile w file, none)]) out := by
          simp [stageGeneratedPDFs, recording, hc]
        have hpl : stageGeneratedPDFs w gitAdd (file :: rest) s out =
            stageGeneratedPDFs w gitAdd rest s1 out := by
          simp [stageGeneratedPDFs, hc]
        rw [hrec, hpl]
        refine ⟨h.1, h.2.1, h.2.2.1, ?_⟩
        rw [h.2.2.2]
        simp [hpath]

/-- C9: whatever the individual `git add` calls return, `stageGeneratedPDFs` makes
exactly one staging attempt per file, in list order, on the path that the derivation
of `convertFile` yields for that file, and it returns nil; so the error `runAsHook`
returns is the same for every behaviour of `git add`.  Recording the attempts does not
change the world the calls leave behind. -/
theorem stageGeneratedPDFs_contract {σ : Type} (w : Bool) (gitAdd : Action σ)
    (files : List GoString) (s : σ) (out : List GoString) :
    (stageGeneratedPDFs w gitAdd files s out).err = none ∧
    (stageGeneratedPDFs w (recording gitAdd) files (s, []) out).world.2.map Prod.fst =
      files.map (outputFile w) ∧
    (stageGeneratedPDFs w (recording gitAdd) files (s, []) out).world.1 =
      (stageGeneratedPDFs w gitAdd files s out).world ∧
    (∀ file, pdfFile w file = outputFile w file) ∧
    (∀ (c : Converter) (confirm : Bool) (staged : List GoString × Option GoError)
        (convertFile gitAdd2 : Action σ) (sched : List Nat),
      (runAsHook c w confirm staged convertFile gitAdd sched s).map Outcome.err =
        (runAsHook c w confirm staged convertFile gitAdd2 sched s).map Outcome.err) := by
  obtain ⟨_, h2, h3, h4⟩ := stageGeneratedPDFs_recording w gitAdd files s [] out
  refine ⟨h2, by simpa using h4, h3, fun _ => rfl, ?_⟩
  intro c confirm staged convertFile gitAdd2 sched
  unfold runAsHook
  cases confirm with
  | false => rfl
  | true =>
    obtain ⟨fs, e⟩ := staged
    cases e with
    | some err => rfl
    | none =>
      simp only [Bool.not_true, Bool.false_eq_true, if_false]
      by_cases h0 : fs.length = 0
      · rw [if_pos h0, if_pos h0]
      · rw [if_neg h0, if_neg h0]
        cases convertFiles c convertFile fs sched s with
        | none => rfl
        | some r =>
          obtain ⟨s1, e1⟩ := r
          cases e1 with
          | some err => rfl
          | none =>
            simp only [Option.map_some', Option.some.injEq]
            rw [(stageGeneratedPDFs_recording w gitAdd fs s1 [] []).2.1,
              (stageGeneratedPDFs_recording w gitAdd2 fs s1 [] []).2.1]

/-! ## Discovery -/

theorem path_eq_dirPart_append (w : Bool) (p : GoString) :
    p = dirPart w p ++ lastElement w p := by
  rw [dirPart_eq]
  unfold lastElement
  rw [← List.reverse_append, List.takeWhile_append_dropWhile, List.reverse_reverse]

theorem takeWhile_append_of_all {α : Type} (f : α → Bool) :
    ∀ (a b : List α), (∀ x ∈ a, f x = true) → (a ++ b).takeWhile f = a ++ b.takeWhile f := by
  intro a
  induction a with
  | nil => intro b _; rfl
  | cons x a ih =>
    intro b h
    have hx : f x = true := h x (List.mem_cons_self x a)
    simp only [List.cons_append, List.takeWhile_cons, hx, if_true]
    rw [ih b (fun y hy => h y (List.mem_cons_of_mem x hy))]

theorem lastElement_append_noSep (w : Bool) (a e : GoString)
    (h : ∀ c ∈ e, isPathSeparator w c = false) :
    lastElement w (a ++ e) = lastElement w a ++ e := by
  unfold lastElement
  rw [List.reverse_append, takeWhile_append_of_all]
  · simp
  · intro x hx
    simp [h x (List.mem_reverse.mp hx)]

theorem HasSuffix_lastElement (w : Bool) (p suf : GoString)
    (h : ∀ c ∈ suf, isPathSeparator w c = false) :
    HasSuffix (lastElement w p) suf = HasSuffix p suf := by
  rw [Bool.eq_iff_iff, HasSuffix_iff, HasSuffix_iff]
  constructor
  · rintro ⟨a, ha⟩
    refine ⟨dirPart w p ++ a, ?_⟩
    conv_lhs => rw [path_eq_dirPart_append w p, ha]
    simp
  · rintro ⟨a, rfl⟩
    exact ⟨lastElement w a, lastElement_append_noSep w a suf h⟩

theorem dotMd_noSep (w : Bool) : ∀ c ∈ dotMd, isPathSeparator w c = false := by
  cases w <;> simp [dotMd, isPathSeparator]

theorem dotMarkdown_noSep (w : Bool) : ∀ c ∈ dotMarkdown, isPathSeparator w c = false := by
  cases w <;> simp [dotMarkdown, isPathSeparator]

/-- A path ends in `.md` or `.markdown` exactly when its final element does. -/
theorem isMarkdownPath_lastElement (w : Bool) (p : GoString) :
    isMarkdownPath (lastElement w p) = isMarkdownPath p := by
  unfold isMarkdownPath
  rw [HasSuffix_lastElement w p dotMd (dotMd_noSep w),
    HasSuffix_lastElement w p dotMarkdown (dotMarkdown_noSep w)]

theorem selectedByName_eq (w : Bool) (es : List (GoString × Node)) :
    selectedByName w es = selected es := by
  unfold selectedByName selected
  simp only [isMarkdownPath_lastElement]

theorem selected_append (a b : List (GoString × Node)) :
    selected (a ++ b) = selected a ++ selected b := by
  simp [selected]

mutual
theorem walk_recursive (c : Converter) (hrec : c.recursive = true) :
    ∀ (path : GoString) (n : Node) (files : List GoString), n.readable = true →
      walk (walkFn c) path n files = (files ++ selected (Node.entries path n), none)
  | path, .file, files, _ => by
    by_cases hm : isMarkdownPath path = true
    · have hm2 := hm
      simp only [isMarkdownPath] at hm2
      simp [walk, walkFn, IsDir, hm2, selected, Node.entries, Node.isFile, hm]
    · have hm2 := hm
      simp only [isMarkdownPath] at hm2
      simp [walk, walkFn, IsDir, hm2, selected, Node.entries, Node.isFile, hm]
  | path, .dir children, files, h => by
    have hk : Node.readable.readableAll children = true := by
      simpa [Node.readable] using h
    have ih := walkNames_recursive c hrec children files hk
    simp only [walk, walkFn, IsDir, hrec]
    simp only [Bool.not_true, Bool.and_false, Bool.false_and, Bool.not_true,
      Bool.false_eq_true, if_false]
    rw [ih]
    simp [selected, Node.entries, Node.isFile]
  | _, .unreadableDir _, _, h => by simp [Node.readable] at h
  | _, .lstatErr _, _, h => by simp [Node.readable] at h
theorem walkNames_recursive (c : Converter) (hrec : c.recursive = true) :
    ∀ (children : List (GoString × Node)) (files : List GoString),
      Node.readable.readableAll children = true →
      walkNames (walkFn c) children files =
        (files ++ selected (Node.entries.entriesOf children), none)
  | [], files, _ => by simp [walkNames, Node.entries.entriesOf, selected]
  | (p, n) :: rest, files, h => by
    have h2 : n.readable = true ∧ Node.readable.readableAll rest = true := by
      simpa [Node.readable.readableAll] using h
    have ih1 := walk_recursive c hrec p n files h2.1
    have ih2 := walkNames_recursive c hrec rest (files ++ selected (Node.entries p n)) h2.2
    simp only [walkNames, ih1, ih2, Node.entries.entriesOf, selected_append]
    simp
end

/-- C4: with recursion enabled, on a readable tree, discovery succeeds and returns, in
traversal order and each once, exactly the paths of the non-directory entries at any
depth whose name ends in `.md` or `.markdown`; the test is case-sensitive, so
`README.MD` is not selected, and a directory is never selected, whatever its name. -/
theorem findMarkdownFiles_recursive (w : Bool) (c : Converter) (root : Node)
    (hrec : c.recursive = true) (hread : root.readable = true) :
    findMarkdownFiles c root = (selectedByName w (Node.entries c.inputDir root), none) ∧
    isMarkdownPath (lastElement w ['R', 'E', 'A', 'D', 'M', 'E', '.', 'M', 'D']) = false ∧
    (∀ p, p ∈ (findMarkdownFiles c root).1 ↔
      ((p, Node.file) ∈ Node.entries c.inputDir root ∧
        isMarkdownPath (lastElement w p) = true)) := by
  have h1 : findMarkdownFiles c root =
      (selectedByName w (Node.entries c.inputDir root), none) := by
    unfold findMarkdownFiles Walk
    rw [walk_recursive c hrec c.inputDir root [] hread, selectedByName_eq]
    simp
  refine ⟨h1, ?_, ?_⟩
  · rw [isMarkdownPath_lastElement]; decide
  · intro p
    rw [h1]
    simp only [selectedByName, List.mem_map, List.mem_filter, Bool.and_eq_true]
    constructor
    · rintro ⟨⟨q, n⟩, ⟨hmem, hfile, hmd⟩, rfl⟩
      cases n <;> simp [Node.isFile] at hfile
      exact ⟨hmem, hmd⟩
    · rintro ⟨hmem, hmd⟩
      exact ⟨(p, Node.file), ⟨hmem, rfl, hmd⟩, rfl⟩

theorem walkNames_flat (c : Converter) (hrec : c.recursive = false) :
    ∀ (kids : List (GoString × Node)) (files : List GoString),
      (∀ p ch, (p, Node.dir ch) ∈ kids → p ≠ c.inputDir) →
      ((∀ k ∈ kids, k.2.statOk = true) ∧
          walkNames (walkFn c) kids files = (files ++ selected kids, none)) ∨
        ((∃ k ∈ kids, k.2.statOk = false) ∧
          ∃ fs e, walkNames (walkFn c) kids files = (fs, some (.other e)))
  | [], files, _ => by
    left
    refine ⟨?_, ?_⟩
    · intro k hk; cases hk
    · simp [walkNames, selected]
  | (p, n) :: rest, files, h => by
    have hrest : ∀ q ch, (q, Node.dir ch) ∈ rest → q ≠ c.inputDir :=
      fun q ch hq => h q ch (List.mem_cons_of_mem _ hq)
    cases n with
    | file =>
      by_cases hm : isMarkdownPath p = true
      · have hm2 := hm
        simp only [isMarkdownPath] at hm2
        have hw : walk (walkFn c) p Node.file files = (files ++ [p], none) := by
          simp [walk, walkFn, IsDir, hm2]
        rcases walkNames_flat c hrec rest (files ++ [p]) hrest with ⟨ha, hb⟩ | ⟨⟨k, hk, hk2⟩, hb⟩
        · left
          refine ⟨?_, ?_⟩
          · intro k hk
            rcases List.mem_cons.mp hk with rfl | hk
            · rfl
            · exact ha k hk
          · simp [walkNames, hw, hb, selected, Node.isFile, hm]
        · right
          refine ⟨⟨k, List.mem_cons_of_mem _ hk, hk2⟩, ?_⟩
          simpa [walkNames, hw] using hb
      · have hm2 := hm
        simp only [isMarkdownPath] at hm2
        have hw : walk (walkFn c) p Node.file files = (files, none) := by
          simp [walk, walkFn, IsDir, hm2]
        rcases walkNames_flat c hrec rest files hrest with ⟨ha, hb⟩ | ⟨⟨k, hk, hk2⟩, hb⟩
        · left
          refine ⟨?_, ?_⟩
          · intro k hk
            rcases List.mem_cons.mp hk with rfl | hk
            · rfl
            · exact ha k hk
          · simp [walkNames, hw, hb, selected, Node.isFile, hm]
        · right
          refine ⟨⟨k, List.mem_cons_of_mem _ hk, hk2⟩, ?_⟩
          simpa [walkNames, hw] using hb
    | dir ch =>
      have hne : p ≠ c.inputDir := h p ch (List.mem_cons_self _ _)
      have hw : walk (walkFn c) p (Node.dir ch) files = (files, some .SkipDir) := by
        simp [walk, walkFn, IsDir, hrec, hne]
      rcases walkNames_flat c hrec rest files hrest with ⟨ha, hb⟩ | ⟨⟨k, hk, hk2⟩, hb⟩
      · left
        refine ⟨?_, ?_⟩
        · intro k hk
          rcases List.mem_cons.mp hk with rfl | hk
          · rfl
          · exact ha k hk
        · simp [walkNames, hw, hb, selected, Node.isFile, Node.lstat, IsDir]
      · right
        refine ⟨⟨k, List.mem_cons_of_mem _ hk, hk2⟩, ?_⟩
        simpa [walkNames, hw, Node.lstat, IsDir] using hb
    | unreadableDir e =>
      right
      refine ⟨⟨(p, Node.unreadableDir e), List.mem_cons_self _ _, rfl⟩, files, e, ?_⟩
      simp [walkNames, walk, walkFn, Node.lstat, IsDir]
    | lstatErr e =>
      right
      refine ⟨⟨(p, Node.lstatErr e), List.mem_cons_self _ _, rfl⟩, files, e, ?_⟩
      simp [walkNames, walk, walkFn]

theorem findMarkdownFiles_flat_cases (c : Converter) (kids : List (GoString × Node))
    (hrec : c.recursive = false)
    (hroot : ∀ p ch, (p, Node.dir ch) ∈ kids → p ≠ c.inputDir) :
    ((∀ k ∈ kids, k.2.statOk = true) ∧
        findMarkdownFiles c (.dir kids) = (selected kids, none)) ∨
      ((∃ k ∈ kids, k.2.statOk = false) ∧
        ∃ e, findMarkdownFiles c (.dir kids) = ([], some e)) := by
  have hw : walk (walkFn c) c.inputDir (Node.dir kids) [] =
      walkNames (walkFn c) kids [] := by
    simp [walk, walkFn, IsDir, hrec]
  rcases walkNames_flat c hrec kids [] hroot with ⟨ha, hb⟩ | ⟨hk, fs, e, hb⟩
  · left
    refine ⟨ha, ?_⟩
    simp [findMarkdownFiles, Walk, hw, hb]
  · right
    refine ⟨hk, e, ?_⟩
    simp [findMarkdownFiles, Walk, hw, hb]

/-- C3 as stated fails: with recursion disabled, in a root that holds `a.md` and an
entry on which lstat fails, the direct child `a.md` is not returned. -/
theorem findMarkdownFiles_flat_incomplete :
    ¬ (∀ (c : Converter) (kids : List (GoString × Node)), c.recursive = false →
        (∀ p ch, (p, Node.dir ch) ∈ kids → p ≠ c.inputDir) →
        ∀ p, (p, Node.file) ∈ kids → isMarkdownPath p = true →
          p ∈ (findMarkdownFiles c (.dir kids)).1) := by
  intro h
  have h1 := h ⟨['r'], false, false, false⟩
    [(['r', '/', 'a', '.', 'm', 'd'], Node.file),
     (['r', '/', 'z'], Node.lstatErr (.new ['E', 'A', 'C', 'C', 'E', 'S']))]
    rfl (by intro p ch hp; simp at hp) ['r', '/', 'a', '.', 'm', 'd']
    (List.mem_cons_self _ _) (by decide)
  revert h1
  decide

/-- C3 amended: with recursion disabled and a directory as root, every returned path
is a non-directory entry directly inside the root whose path ends in `.md` or
`.markdown`; and when the walk reports no error, which is exactly when every direct
child of the root can be stat'ed and, if a directory, read, the result is the list of
all such direct children in listing order, so each of them is returned. -/
theorem findMarkdownFiles_flat (c : Converter) (kids : List (GoString × Node))
    (hrec : c.recursive = false)
    (hroot : ∀ p ch, (p, Node.dir ch) ∈ kids → p ≠ c.inputDir) :
    (∀ p ∈ (findMarkdownFiles c (.dir kids)).1,
      (p, Node.file) ∈ kids ∧ isMarkdownPath p = true) ∧
    ((findMarkdownFiles c (.dir kids)).2 = none ↔ ∀ k ∈ kids, k.2.statOk = true) ∧
    ((findMarkdownFiles c (.dir kids)).2 = none →
      (findMarkdownFiles c (.dir kids)).1 = selected kids ∧
      ∀ p, (p, Node.file) ∈ kids → isMarkdownPath p = true →
        p ∈ (findMarkdownFiles c (.dir kids)).1) := by
  have hsel : ∀ p, p ∈ selected kids ↔ ((p, Node.file) ∈ kids ∧ isMarkdownPath p = true) := by
    intro p
    simp only [selected, List.mem_map, List.mem_filter, Bool.and_eq_true]
    constructor
    · rintro ⟨⟨q, n⟩, ⟨hmem, hfile, hmd⟩, rfl⟩
      cases n <;> simp [Node.isFile] at hfile
      exact ⟨hmem, hmd⟩
    · rintro ⟨hmem, hmd⟩
      exact ⟨(p, Node.file), ⟨hmem, rfl, hmd⟩, rfl⟩
  rcases findMarkdownFiles_flat_cases c kids hrec hroot with ⟨ha, hb⟩ | ⟨⟨k, hk, hk2⟩, e, hb⟩
  · rw [hb]
    refine ⟨fun p hp => (hsel p).mp hp, ⟨fun _ => ha, fun _ => rfl⟩, fun _ => ⟨rfl, ?_⟩⟩
    intro p hp hm
    exact (hsel p).mpr ⟨hp, hm⟩
  · rw [hb]
    refine ⟨?_, ⟨?_, ?_⟩, ?_⟩
    · intro p hp; simp at hp
    · intro h; simp at h
    · intro h; have := h k hk; rw [hk2] at this; simp at this
    · intro h; simp at h

/-- C4 on the example tree: `a.md` and the nested `x.markdown` are returned in
traversal order; the directory `docs.md`, `y.txt` and `README.MD` are not. -/
theorem findMarkdownFiles_recursive_witness :
    findMarkdownFiles (exampleConverter true false) (.dir exampleKids) =
      (["r/a.md".toList, "r/docs.md/x.markdown".toList], none) :=
  (findMarkdownFiles_recursive false (exampleConverter true false) (.dir exampleKids) rfl
    (by decide)).1.trans (by decide)

/-- C3 amended on the example tree: the walk reports no error, and only the direct
child `a.md` is returned, not the nested `x.markdown`. -/
theorem findMarkdownFiles_flat_witness :
    (findMarkdownFiles (exampleConverter false false) (.dir exampleKids)).1 =
      selected exampleKids ∧ selected exampleKids = ["r/a.md".toList] :=
  ⟨((findMarkdownFiles_flat (exampleConverter false false) exampleKids rfl
      (by
        intro p ch hp
        simp [exampleKids] at hp
        rw [hp.1]
        decide)).2.2 (by decide)).1, by decide⟩

/-! ## Discovery failure -/

theorem walkFn_none_result (c : Converter) (files : List GoString) (path : GoString)
    (info : Option FileInfo) :
    (walkFn c files path info none).2 = none ∨
      ((walkFn c files path info none).2 = some .SkipDir ∧ IsDir info = true) := by
  simp only [walkFn]
  by_cases h1 : (IsDir info && !c.recursive && path != c.inputDir) = true
  · right
    rw [if_pos h1]
    simp only [Bool.and_eq_true] at h1
    exact ⟨rfl, h1.1.1⟩
  · left
    rw [if_neg h1]
    split <;> rfl

theorem recordingFn_apply {τ : Type} (fn : WalkFunc τ) (t : τ)
    (log : List (GoString × Option GoError)) (path : GoString) (info : Option FileInfo)
    (err : Option GoError) :
    recordingFn fn (t, log) path info err =
      (((fn t path info err).1, log ++ [(path, err)]), (fn t path info err).2) := rfl

theorem LogSpec_call_none (c : Converter) (files : List GoString)
    (log : List (GoString × Option GoError)) (path : GoString) (info : Option FileInfo) :
    LogSpec (recordingFn (walkFn c) (files, log) path info none)
      (walkFn c files path info none) log (IsDir info) := by
  rw [recordingFn_apply]
  refine ⟨rfl, rfl, [(path, none)], rfl, Or.inl ⟨?_, ?_⟩⟩
  · intro q hq
    rw [List.mem_singleton.mp hq]
  · rcases walkFn_none_result c files path info with h | ⟨h, h2⟩
    · exact Or.inl h
    · exact Or.inr ⟨h, h2⟩

theorem LogSpec_call_err (c : Converter) (files : List GoString)
    (log : List (GoString × Option GoError)) (path : GoString) (info : Option FileInfo)
    (e : GoError) (b : Bool) :
    LogSpec (recordingFn (walkFn c) (files, log) path info (some e))
      (walkFn c files path info (some e)) log b := by
  rw [recordingFn_apply]
  refine ⟨rfl, rfl, [(path, some e)], rfl, Or.inr ⟨[], path, e, rfl, ?_, rfl⟩⟩
  intro q hq
  cases hq

mutual
theorem walk_recording (c : Converter) :
    ∀ (path : GoString) (n : Node) (files : List GoString)
      (log : List (GoString × Option GoError)),
      LogSpec (walk (recordingFn (walkFn c)) path n (files, log))
        (walk (walkFn c) path n files) log (IsDir n.lstat)
  | path, .file, files, log => by
    simp only [walk]
    exact LogSpec_call_none c files log path (some ⟨false⟩)
  | path, .unreadableDir e, files, log => by
    simp only [walk]
    exact LogSpec_call_err c files log path (some ⟨true⟩) e _
  | path, .lstatErr e, files, log => by
    simp only [walk]
    exact LogSpec_call_err c files log path none e _
  | path, .dir children, files, log => by
    have hcall := LogSpec_call_none c files log path (some ⟨true⟩)
    rw [recordingFn_apply] at hcall
    simp only [walk, recordingFn_apply]
    cases hfn : walkFn c files path (some ⟨true⟩) none with
    | mk fs1 r1 =>
      rw [hfn] at hcall
      cases r1 with
      | some err1 => exact hcall
      | none =>
        have ih := walkNames_recording c children fs1 (log ++ [(path, none)])
        obtain ⟨h1, h2, new, h3, h4⟩ := ih
        refine ⟨h1, h2, (path, none) :: new, by simp [h3], ?_⟩
        rcases h4 with ⟨ha, hb⟩ | ⟨pre, p, e, ha, hb, hc⟩
        · left
          refine ⟨?_, ?_⟩
          · intro q hq
            rcases List.mem_cons.mp hq with rfl | hq
            · rfl
            · exact ha q hq
          · rcases hb with hb | ⟨_, hb⟩
            · exact Or.inl hb
            · cases hb
        · right
          refine ⟨(path, none) :: pre, p, e, by simp [ha], ?_, hc⟩
          intro q hq
          rcases List.mem_cons.mp hq with rfl | hq
          · rfl
          · exact hb q hq
theorem walkNames_recording (c : Converter) :
    ∀ (children : List (GoString × Node)) (files : List GoString)
      (log : List (GoString × Option GoError)),
      LogSpec (walkNames (recordingFn (walkFn c)) children (files, log))
        (walkNames (walkFn c) children files) log false
  | [], files, log => by
    refine ⟨rfl, rfl, [], by simp [walkNames], Or.inl ⟨?_, Or.inl rfl⟩⟩
    intro q hq
    cases hq
  | (p, n) :: rest, files, log => by
    obtain ⟨h1, h2, new, h3, h4⟩ := walk_recording c p n files log
    have hrec0 : walk (recordingFn (walkFn c)) p n (files, log) =
        (((walk (walkFn c) p n files).1, log ++ new), (walk (walkFn c) p n files).2) :=
      Prod.ext (Prod.ext h1 h3) h2
    cases hpl : walk (walkFn c) p n files with
    | mk fs1 r2 =>
        rw [hpl] at h4 hrec0
        have hrec : walk (recordingFn (walkFn c)) p n (files, log) =
            ((fs1, log ++ new), r2) := hrec0
        simp only at h4
        have ih := walkNames_recording c rest fs1 (log ++ new)
        have hcont : (∀ q ∈ new, q.2 = none) →
            LogSpec (walkNames (recordingFn (walkFn c)) rest (fs1, log ++ new))
              (walkNames (walkFn c) rest fs1) log false := by
          intro hnew
          obtain ⟨i1, i2, new2, i3, i4⟩ := ih
          refine ⟨i1, i2, new ++ new2, by simp [i3], ?_⟩
          rcases i4 with ⟨ia, ib⟩ | ⟨pre, q, e, ia, ib, ic⟩
          · left
            refine ⟨?_, ib⟩
            intro x hx
            rcases List.mem_append.mp hx with hx | hx
            · exact hnew x hx
            · exact ia x hx
          · right
            refine ⟨new ++ pre, q, e, by simp [ia], ?_, ic⟩
            intro x hx
            rcases List.mem_append.mp hx with hx | hx
            · exact hnew x hx
            · exact ib x hx
        rcases h4 with ⟨ha, hb⟩ | ⟨pre, q, e, ha, hb, hc⟩
        · rcases hb with hb | ⟨hb, hdir⟩
          · subst hb
            simp only [walkNames, hrec, hpl]
            exact hcont ha
          · subst hb
            cases n with
            | lstatErr e => simp [Node.lstat, IsDir] at hdir
            | file => simp [Node.lstat, IsDir] at hdir
            | dir ch =>
              simp only [walkNames, hrec, hpl, Node.lstat, IsDir]
              simpa using hcont ha
            | unreadableDir e =>
              simp only [walkNames, hrec, hpl, Node.lstat, IsDir]
              simpa using hcont ha
        · subst hc
          have hres : LogSpec ((fs1, log ++ new), some (WalkErr.other e))
              (fs1, some (WalkErr.other e)) log false :=
            ⟨rfl, rfl, new, rfl, Or.inr ⟨pre, q, e, ha, hb, rfl⟩⟩
          cases n <;> simpa [walkNames, hrec, hpl] using hres
end


/-- C6: whatever the tree and the recursion setting, if some call of the walk
function carries an error, that call is the last call of the walk and the first with
an error; `findMarkdownFiles` returns that error with a nil slice; `Run` returns it
wrapped as `failed to find markdown files: <cause>` and leaves the world untouched,
the converter being invoked on no file.  Without such a call discovery returns no
error.  Recording the calls changes neither the slice nor the result of the walk. -/
theorem findMarkdownFiles_abort {σ : Type} (c : Converter) (root : Node)
    (convertFile : Action σ) (sched : List Nat) (s : σ) :
    (Walk (recordingFn (walkFn c)) c.inputDir root ([], [])).1.1 =
        (Walk (walkFn c) c.inputDir root []).1 ∧
    (Walk (recordingFn (walkFn c)) c.inputDir root ([], [])).2 =
        (Walk (walkFn c) c.inputDir root []).2 ∧
    (∀ p e, (p, some e) ∈ (Walk (recordingFn (walkFn c)) c.inputDir root ([], [])).1.2 →
      (∃ pre, (Walk (recordingFn (walkFn c)) c.inputDir root ([], [])).1.2 =
          pre ++ [(p, some e)] ∧ ∀ q ∈ pre, q.2 = none) ∧
      findMarkdownFiles c root = ([], some e) ∧
      Run c root (recording convertFile) sched (s, []) =
        some ⟨(s, []), [], some (errorfFind e)⟩ ∧
      (errorfFind e).Error = msgFailedToFind ++ e.Error ∧
      (errorfFind e).Unwrap = some e) ∧
    ((∀ q ∈ (Walk (recordingFn (walkFn c)) c.inputDir root ([], [])).1.2, q.2 = none) →
      (findMarkdownFiles c root).2 = none) := by
  obtain ⟨h1, h2, new, h3, h4⟩ := walk_recording c c.inputDir root [] []
  have hrec : walk (recordingFn (walkFn c)) c.inputDir root ([], []) =
      (((walk (walkFn c) c.inputDir root []).1, new), (walk (walkFn c) c.inputDir root []).2) :=
    Prod.ext (Prod.ext h1 (by simpa using h3)) h2
  cases hpl : walk (walkFn c) c.inputDir root [] with
  | mk fs r =>
    rw [hpl] at hrec h4
    simp only at hrec h4
    have hlog : (Walk (recordingFn (walkFn c)) c.inputDir root ([], [])).1.2 = new := by
      unfold Walk
      rw [hrec]
      split <;> simp_all
    rw [hlog]
    rcases h4 with ⟨ha, hb⟩ | ⟨pre, q, e1, ha, hb, hc⟩
    · have hr : r = none ∨ r = some .SkipDir := by
        rcases hb with hb | ⟨hb, _⟩
        · exact Or.inl hb
        · exact Or.inr hb
      refine ⟨?_, ?_, ?_, ?_⟩
      · rcases hr with rfl | rfl <;> simp [Walk, hrec, hpl]
      · rcases hr with rfl | rfl <;> simp [Walk, hrec, hpl]
      · intro p e hmem
        have := ha _ hmem
        simp at this
      · intro _
        rcases hr with rfl | rfl <;> simp [findMarkdownFiles, Walk, hpl]
    · subst hc
      refine ⟨by simp [Walk, hrec, hpl], by simp [Walk, hrec, hpl], ?_, ?_⟩
      · intro p e hmem
        have hpe : (p, some e) = (q, some e1) := by
          rw [ha] at hmem
          rcases List.mem_append.mp hmem with hmem | hmem
          · have := hb _ hmem
            simp at this
          · exact List.mem_singleton.mp hmem
        have hp : p = q := congrArg Prod.fst hpe
        have he : e = e1 := Option.some.inj (congrArg Prod.snd hpe)
        subst hp he
        have hfind : findMarkdownFiles c root = ([], some e) := by
          simp [findMarkdownFiles, Walk, hpl]
        refine ⟨⟨pre, ha, hb⟩, hfind, ?_, rfl, rfl⟩
        simp [Run, hfind]
      · intro hall
        have := hall (q, some e1) (by rw [ha]; simp)
        simp at this

/-- C6 on a root that holds `a.md` and an unreadable directory, without recursion:
`a.md` was matched before the error, yet no path is returned. -/
theorem findMarkdownFiles_abort_witness :
    findMarkdownFiles (exampleConverter false false) (.dir brokenKids) =
      ([], some (.new "permission denied".toList)) :=
  ((findMarkdownFiles_abort (exampleConverter false false) (.dir brokenKids)
    (fun (s : Unit) _ => (s, none)) [] ()).2.2.1 "r/sub".toList
      (.new "permission denied".toList) (by decide)).2.1

/-! ## A run that finds no file -/

/-- C7: when discovery succeeds with an empty list, `Run` returns nil, whatever the
parallel flag; it prints the line `No markdown files found` and leaves the world
untouched, the converter being invoked on no file. -/
theorem Run_no_files {σ : Type} (c : Converter) (root : Node) (convertFile : Action σ)
    (sched : List Nat) (s : σ) (h : findMarkdownFiles c root = ([], none)) :
    Run c root convertFile sched s = some ⟨s, [msgNoFiles], none⟩ ∧
    Run c root (recording convertFile) sched (s, []) =
      some ⟨(s, []), [msgNoFiles], none⟩ := by
  simp [Run, h]

/-- C7 on an empty root directory, for both values of the parallel flag. -/
theorem Run_no_files_witness :
    Run (exampleConverter true true) (.dir []) (recording (fun (s : Unit) _ => (s, none)))
        [] ((), []) = some ⟨((), []), [msgNoFiles], none⟩ ∧
    Run (exampleConverter true false) (.dir []) (recording (fun (s : Unit) _ => (s, none)))
        [] ((), []) = some ⟨((), []), [msgNoFiles], none⟩ :=
  ⟨(Run_no_files (exampleConverter true true) (.dir []) (fun (s : Unit) _ => (s, none))
      [] () (by decide)).2,
   (Run_no_files (exampleConverter true false) (.dir []) (fun (s : Unit) _ => (s, none))
      [] () (by decide)).2⟩

/-! ## The parallel driver -/

theorem total_append (f : TaskPc → Nat) (a b : List Task) :
    total f (a ++ b) = total f a + total f b := by
  simp [total]

theorem total_set (f : TaskPc → Nat) :
    ∀ (tasks : List Task) (i : Nat) (t : Task) (file : GoString) (pc : TaskPc),
      tasks[i]? = some t →
      total f (tasks.set i ⟨file, pc⟩) + f t.pc = total f tasks + f pc := by
  intro tasks
  induction tasks with
  | nil => intro i t file pc h; simp at h
  | cons x xs ih =>
    intro i t file pc h
    cases i with
    | zero =>
      simp only [List.getElem?_cons_zero, Option.some.injEq] at h
      subst h
      simp only [total, List.set_cons_zero, List.map_cons, List.sum_cons]
      omega
    | succ i =>
      simp only [List.getElem?_cons_succ] at h
      have := ih i t file pc h
      simp only [total, List.set_cons_succ, List.map_cons, List.sum_cons] at this ⊢
      omega

theorem total_pos (f : TaskPc → Nat) :
    ∀ (tasks : List Task) (i : Nat) (t : Task), tasks[i]? = some t →
      f t.pc ≤ total f tasks := by
  intro tasks
  induction tasks with
  | nil => intro i t h; simp at h
  | cons x xs ih =>
    intro i t h
    cases i with
    | zero =>
      simp only [List.getElem?_cons_zero, Option.some.injEq] at h
      subst h
      simp [total]
    | succ i =>
      simp only [List.getElem?_cons_succ] at h
      have := ih i t h
      simp only [total, List.map_cons, List.sum_cons] at this ⊢
      omega

theorem total_live_zero :
    ∀ (tasks : List Task), total livePc tasks = 0 → ∀ t ∈ tasks, t.pc = .done := by
  intro tasks h t ht
  obtain ⟨i, hi, hget⟩ := List.getElem_of_mem ht
  have h1 : tasks[i]? = some t := by rw [List.getElem?_eq_getElem hi, hget]
  have h2 := total_pos livePc tasks i t h1
  rw [h] at h2
  cases hpc : t.pc <;> simp [hpc, livePc] at h2 ⊢

theorem total_settled_lt :
    ∀ (tasks : List Task) (i : Nat) (t : Task), tasks[i]? = some t → settledPc t.pc = 0 →
      total settledPc tasks < tasks.length := by
  intro tasks
  induction tasks with
  | nil => intro i t h; simp at h
  | cons x xs ih =>
    intro i t h h0
    have hle : ∀ l : List Task, total settledPc l ≤ l.length := by
      intro l
      induction l with
      | nil => simp [total]
      | cons y ys ihy =>
        have hy : settledPc y.pc ≤ 1 := by cases y.pc <;> simp [settledPc]
        simp only [total, List.map_cons, List.sum_cons, List.length_cons] at ihy ⊢
        omega
    cases i with
    | zero =>
      simp only [List.getElem?_cons_zero, Option.some.injEq] at h
      subst h
      have := hle xs
      simp only [total, List.map_cons, List.sum_cons, List.length_cons] at this ⊢
      omega
    | succ i =>
      simp only [List.getElem?_cons_succ] at h
      have := ih i t h h0
      have hx : settledPc x.pc ≤ 1 := by cases x.pc <;> simp [settledPc]
      simp only [total, List.map_cons, List.sum_cons, List.length_cons] at this ⊢
      omega

theorem map_file_set (tasks : List Task) (i : Nat) (t : Task) (pc : TaskPc)
    (h : tasks[i]? = some t) :
    (tasks.set i ⟨t.file, pc⟩).map Task.file = tasks.map Task.file := by
  apply List.ext_getElem?
  intro j
  by_cases hj : i = j
  · subst hj
    have hi : i < tasks.length := by
      rcases Nat.lt_or_ge i tasks.length with hlt | hge
      · exact hlt
      · rw [List.getElem?_eq_none hge] at h; cases h
    have hget : tasks[i] = t := by
      rw [List.getElem?_eq_getElem hi] at h
      exact Option.some.inj h
    simp [List.getElem?_map, hi, hget]
  · simp [List.getElem?_map, List.getElem?_set_ne hj]

theorem eventsOf_append_same (i : Nat) (tr : List Event) (ev : Event) (h : ev.tid = i) :
    eventsOf i (tr ++ [ev]) = eventsOf i tr ++ [ev] := by
  simp [eventsOf, List.filter_append, h]

theorem eventsOf_append_other (i : Nat) (tr : List Event) (ev : Event) (h : ev.tid ≠ i) :
    eventsOf i (tr ++ [ev]) = eventsOf i tr := by
  simp [eventsOf, List.filter_append, h]

theorem eventsOf_nil_of_lt (i : Nat) (tr : List Event) (h : ∀ ev ∈ tr, ev.tid < i) :
    eventsOf i tr = [] := by
  simp only [eventsOf, List.filter_eq_nil_iff]
  intro ev hev
  have := h ev hev
  simp
  omega

theorem sends_append (tr : List Event) (ev : Event) :
    sends (tr ++ [ev]) = sends tr ++ (match ev with
      | .send i err => [(i, err)]
      | _ => []) := by
  cases ev <;> simp [sends, List.filterMap_append]

theorem stepTask_cases {σ : Type} (convertFile : Action σ) (st st1 : PState σ) (i : Nat)
    (h : stepTask convertFile st i = some st1) :
    ∃ t, st.tasks[i]? = some t ∧
      ((t.pc = .start ∧
          st1 = { st with
            world := (convertFile st.world t.file).1,
            tasks := st.tasks.set i ⟨t.file, pcAfter (convertFile st.world t.file).2⟩,
            trace := st.trace ++ [.call i t.file (convertFile st.world t.file).2] }) ∨
       (∃ err, t.pc = .failed err ∧ st.errors.length < st.cap ∧ st.closed = false ∧
          st1 = { st with
            errors := st.errors ++ [some (errorfConvert t.file err)],
            tasks := st.tasks.set i ⟨t.file, .exiting⟩,
            trace := st.trace ++ [.send i (errorfConvert t.file err)] }) ∨
       (t.pc = .exiting ∧ 0 < st.wg ∧
          st1 = { st with
            wg := st.wg - 1,
            tasks := st.tasks.set i ⟨t.file, .done⟩,
            trace := st.trace ++ [.exit i] })) := by
  unfold stepTask at h
  cases hti : st.tasks[i]? with
  | none => simp [hti] at h
  | some t =>
    refine ⟨t, rfl, ?_⟩
    simp only [hti] at h
    cases hpc : t.pc with
    | start =>
      left
      simp only [hpc] at h
      refine ⟨rfl, ?_⟩
      cases hc : convertFile st.world t.file with
      | mk w r =>
        rw [hc] at h
        cases r with
        | some err =>
          simp only [Option.some.injEq] at h
          rw [← h]; rfl
        | none =>
          simp only [Option.some.injEq] at h
          rw [← h]; rfl
    | failed err =>
      right; left
      simp only [hpc] at h
      by_cases hg : st.errors.length < st.cap ∧ st.closed = false
      · rw [if_pos hg] at h
        simp only [Option.some.injEq] at h
        exact ⟨err, rfl, hg.1, hg.2, h.symm⟩
      · rw [if_neg hg] at h
        cases h
    | exiting =>
      right; right
      simp only [hpc] at h
      by_cases hg : 0 < st.wg
      · rw [if_pos hg] at h
        simp only [Option.some.injEq] at h
        exact ⟨rfl, hg, h.symm⟩
      · rw [if_neg hg] at h
        cases h
    | done =>
      simp only [hpc] at h
      cases h

theorem inv_task_update {σ : Type} (files : List GoString) (st st1 : PState σ) (i : Nat)
    (t : Task) (pc1 : TaskPc) (ev : Event)
    (hinv : Inv files st) (ht : st.tasks[i]? = some t) (hev : ev.tid = i)
    (hmain : st1.main = st.main) (hcap : st1.cap = st.cap)
    (htasks : st1.tasks = st.tasks.set i ⟨t.file, pc1⟩)
    (htrace : st1.trace = st.trace ++ [ev])
    (hi : TaskEvents i t.file (eventsOf i st.trace ++ [ev]) pc1)
    (hwg : st1.wg = total livePc st1.tasks)
    (hsends : (sends st1.trace).length ≤ total settledPc st1.tasks)
    (herr : st1.errors.length ≤ (sends st1.trace).length)
    (hmi : MainInv st1) : Inv files st1 := by
  have hlen : i < st.tasks.length := by
    rcases Nat.lt_or_ge i st.tasks.length with hlt | hge
    · exact hlt
    · rw [List.getElem?_eq_none hge] at ht; cases ht
  refine ⟨by rw [hcap]; exact hinv.cap_eq, ?_, ?_, ?_, hwg, hsends, herr, hmi⟩
  · rw [htasks, hmain, map_file_set st.tasks i t pc1 ht]
    exact hinv.files_eq
  · intro j u hu
    rw [htasks] at hu
    rw [htrace]
    by_cases hj : i = j
    · subst hj
      rw [List.getElem?_set_self hlen] at hu
      simp only [Option.some.injEq] at hu
      subst hu
      rw [eventsOf_append_same i st.trace ev hev]
      exact hi
    · rw [List.getElem?_set_ne hj] at hu
      rw [eventsOf_append_other j st.trace ev (by rw [hev]; exact hj)]
      exact hinv.task_inv j u hu
  · intro e he
    rw [htasks, List.length_set]
    rw [htrace] at he
    rcases List.mem_append.mp he with he | he
    · exact hinv.tid_lt e he
    · rw [List.mem_singleton.mp he, hev]
      exact hlen

theorem MainInv_running {σ : Type} (st : PState σ) (h : MainInv st) (hwg : 0 < st.wg) :
    st.closed = false ∧ st.errors = (sends st.trace).map (fun x => some x.2) ∧
      ((∃ rest, st.main = .spawning rest) ∨ st.main = .waiting) := by
  unfold MainInv at h
  cases hm : st.main with
  | spawning rest => rw [hm] at h; exact ⟨h.1, h.2, Or.inl ⟨rest, rfl⟩⟩
  | waiting => rw [hm] at h; exact ⟨h.1, h.2, Or.inr rfl⟩
  | closing => rw [hm] at h; simp only at h; omega
  | draining => rw [hm] at h; simp only at h; omega
  | returned r => rw [hm] at h; simp only at h; omega

theorem MainInv_of_running {σ : Type} (st : PState σ)
    (hm : (∃ rest, st.main = .spawning rest) ∨ st.main = .waiting)
    (hc : st.closed = false) (he : st.errors = (sends st.trace).map (fun x => some x.2)) :
    MainInv st := by
  unfold MainInv
  rcases hm with ⟨rest, hm⟩ | hm <;> rw [hm] <;> exact ⟨hc, he⟩

theorem MainInv_congr {σ : Type} (st st1 : PState σ) (h : MainInv st)
    (h1 : st1.main = st.main) (h2 : st1.closed = st.closed) (h3 : st1.errors = st.errors)
    (h4 : sends st1.trace = sends st.trace) (h5 : st1.wg = st.wg) : MainInv st1 := by
  unfold MainInv at h ⊢
  rw [h1, h2, h3, h4, h5]
  exact h

theorem getElem?_lt {α : Type} (l : List α) (i : Nat) (a : α) (h : l[i]? = some a) :
    i < l.length := by
  rcases Nat.lt_or_ge i l.length with hlt | hge
  · exact hlt
  · rw [List.getElem?_eq_none hge] at h; cases h

theorem inv_stepTask {σ : Type} (convertFile : Action σ) (files : List GoString)
    (st st1 : PState σ) (i : Nat) (hinv : Inv files st)
    (h : stepTask convertFile st i = some st1) : Inv files st1 := by
  obtain ⟨t, ht, hcase⟩ := stepTask_cases convertFile st st1 i h
  have hti := hinv.task_inv i t ht
  have hwgeq := hinv.wg_eq
  have hsle := hinv.sends_le
  have hele := hinv.errors_le
  rcases hcase with ⟨hpc, rfl⟩ | ⟨err, hpc, hlen, hcl, rfl⟩ | ⟨hpc, hwg, rfl⟩
  · -- the call of convertFile
    rw [hpc] at hti
    simp only [TaskEvents] at hti
    have hl := total_set livePc st.tasks i t t.file
      (pcAfter (convertFile st.world t.file).2) ht
    have hs := total_set settledPc st.tasks i t t.file
      (pcAfter (convertFile st.world t.file).2) ht
    rw [hpc] at hl hs
    have hlive : livePc (pcAfter (convertFile st.world t.file).2) = 1 := by
      cases (convertFile st.world t.file).2 <;> rfl
    have hl0 : livePc .start = 1 := rfl
    have hs0 : settledPc .start = 0 := rfl
    refine inv_task_update files st _ i t (pcAfter (convertFile st.world t.file).2)
      (.call i t.file (convertFile st.world t.file).2) hinv ht rfl rfl rfl rfl rfl ?_ ?_ ?_ ?_ ?_
    · rw [hti]
      cases (convertFile st.world t.file).2 with
      | some e => simp [pcAfter, TaskEvents]
      | none => simp [pcAfter, TaskEvents]
    · show st.wg = total livePc
        (st.tasks.set i ⟨t.file, pcAfter (convertFile st.world t.file).2⟩)
      omega
    · simp only [sends_append, List.append_nil]
      omega
    · simp only [sends_append, List.append_nil]
      exact hele
    · exact MainInv_congr st _ hinv.main_inv rfl rfl rfl (by simp [sends_append]) rfl
  · -- the send
    rw [hpc] at hti
    simp only [TaskEvents] at hti
    have hl := total_set livePc st.tasks i t t.file .exiting ht
    have hs := total_set settledPc st.tasks i t t.file .exiting ht
    rw [hpc] at hl hs
    have hl0 : livePc (.failed err) = 1 := rfl
    have hl1 : livePc .exiting = 1 := rfl
    have hs0 : settledPc (.failed err) = 0 := rfl
    have hs1 : settledPc .exiting = 1 := rfl
    have hpos : 0 < st.wg := by
      have := total_pos livePc st.tasks i t ht
      rw [hpc] at this
      omega
    obtain ⟨hc, he, hm⟩ := MainInv_running st hinv.main_inv hpos
    refine inv_task_update files st _ i t .exiting (.send i (errorfConvert t.file err))
      hinv ht rfl rfl rfl rfl rfl ?_ ?_ ?_ ?_ ?_
    · rw [hti]
      right
      exact ⟨err, rfl⟩
    · show st.wg = total livePc (st.tasks.set i ⟨t.file, .exiting⟩)
      omega
    · simp only [sends_append, List.length_append, List.length_singleton]
      omega
    · simp only [sends_append, List.length_append, List.length_singleton]
      omega
    · refine MainInv_of_running _ ?_ ?_ ?_
      · exact hm
      · exact hc
      · simp [sends_append, he]
  · -- the deferred wg.Done()
    rw [hpc] at hti
    simp only [TaskEvents] at hti
    have hl := total_set livePc st.tasks i t t.file .done ht
    have hs := total_set settledPc st.tasks i t t.file .done ht
    rw [hpc] at hl hs
    have hl0 : livePc .exiting = 1 := rfl
    have hl1 : livePc .done = 0 := rfl
    have hs0 : settledPc .exiting = 1 := rfl
    have hs1 : settledPc .done = 1 := rfl
    obtain ⟨hc, he, hm⟩ := MainInv_running st hinv.main_inv hwg
    refine inv_task_update files st _ i t .done (.exit i)
      hinv ht rfl rfl rfl rfl rfl ?_ ?_ ?_ ?_ ?_
    · rcases hti with hti | ⟨e, hti⟩
      · rw [hti]; left; rfl
      · rw [hti]; right; exact ⟨e, rfl⟩
    · show st.wg - 1 = total livePc (st.tasks.set i ⟨t.file, .done⟩)
      omega
    · simp only [sends_append, List.append_nil]
      omega
    · simp only [sends_append, List.append_nil]
      exact hele
    · refine MainInv_of_running _ ?_ ?_ ?_
      · exact hm
      · exact hc
      · simp [sends_append, he]

theorem inv_init {σ : Type} (files : List GoString) (s : σ) : Inv files (initPar files s) := by
  refine ⟨rfl, by simp [initPar, remaining], ?_, ?_, rfl, by simp [initPar, sends, total],
    by simp [initPar], ?_⟩
  · intro i t h
    simp [initPar] at h
  · intro ev hev
    simp [initPar] at hev
  · simp [MainInv, initPar, sends]

theorem inv_stepMain {σ : Type} (files : List GoString) (st st1 : PState σ)
    (hinv : Inv files st) (h : stepMain st = some st1) : Inv files st1 := by
  have hmi := hinv.main_inv
  have hfiles := hinv.files_eq
  unfold stepMain at h
  unfold MainInv at hmi
  cases hm : st.main with
  | spawning rest =>
    rw [hm] at h hmi hfiles
    cases rest with
    | nil =>
      simp only [Option.some.injEq] at h
      subst h
      refine ⟨hinv.cap_eq, ?_, hinv.task_inv, hinv.tid_lt, hinv.wg_eq, hinv.sends_le, ?_, ?_⟩
      · simpa [remaining] using hfiles
      · exact hinv.errors_le
      · exact MainInv_of_running _ (Or.inr rfl) hmi.1 hmi.2
    | cons file rest =>
      simp only [Option.some.injEq] at h
      subst h
      refine ⟨hinv.cap_eq, ?_, ?_, ?_, ?_, ?_, hinv.errors_le, ?_⟩
      · simpa [remaining] using hfiles
      · intro i t hi
        simp only at hi
        rcases Nat.lt_trichotomy i st.tasks.length with hlt | heq | hgt
        · rw [List.getElem?_append_left hlt] at hi
          exact hinv.task_inv i t hi
        · subst heq
          simp only [List.getElem?_concat_length, Option.some.injEq] at hi
          subst hi
          show TaskEvents _ _ (eventsOf st.tasks.length st.trace) TaskPc.start
          rw [eventsOf_nil_of_lt _ _ hinv.tid_lt]
          rfl
        · rw [List.getElem?_eq_none (by simp; omega)] at hi
          cases hi
      · intro ev hev
        have := hinv.tid_lt ev hev
        simp only [List.length_append, List.length_singleton]
        omega
      · show st.wg + 1 = total livePc (st.tasks ++ [⟨file, .start⟩])
        rw [total_append, hinv.wg_eq]
        rfl
      · show (sends st.trace).length ≤ total settledPc (st.tasks ++ [⟨file, .start⟩])
        rw [total_append]
        have := hinv.sends_le
        omega
      · exact MainInv_of_running _ (Or.inl ⟨rest, rfl⟩) hmi.1 hmi.2
  | waiting =>
    rw [hm] at h hmi hfiles
    simp only at h
    by_cases hwg : st.wg = 0
    · rw [if_pos hwg] at h
      simp only [Option.some.injEq] at h
      subst h
      refine ⟨hinv.cap_eq, ?_, hinv.task_inv, hinv.tid_lt, hinv.wg_eq, hinv.sends_le, ?_, ?_⟩
      · simpa [remaining] using hfiles
      · exact hinv.errors_le
      · show MainInv _
        unfold MainInv
        exact ⟨hmi.1, hmi.2, hwg⟩
    · rw [if_neg hwg] at h
      cases h
  | closing =>
    rw [hm] at h hmi hfiles
    simp only [Option.some.injEq] at h
    subst h
    refine ⟨hinv.cap_eq, ?_, hinv.task_inv, hinv.tid_lt, hinv.wg_eq, hinv.sends_le, ?_, ?_⟩
    · simpa [remaining] using hfiles
    · exact hinv.errors_le
    · show MainInv _
      unfold MainInv
      exact ⟨rfl, hmi.2.1, hmi.2.2⟩
  | draining =>
    rw [hm] at h hmi hfiles
    simp only at h hmi
    obtain ⟨hcl, herr, hwg⟩ := hmi
    cases hs : sends st.trace with
    | nil =>
      rw [hs] at herr
      simp only [List.map_nil] at herr
      rw [herr] at h
      simp only [hcl, if_true, Option.some.injEq] at h
      subst h
      refine ⟨hinv.cap_eq, ?_, hinv.task_inv, hinv.tid_lt, hinv.wg_eq, hinv.sends_le, ?_, ?_⟩
      · simpa [remaining] using hfiles
      · exact Nat.zero_le _
      · show MainInv _
        unfold MainInv
        exact ⟨hwg, by simp [hs]⟩
    | cons x xs =>
      rw [hs] at herr
      simp only [List.map_cons] at herr
      rw [herr] at h
      simp only [Option.some.injEq] at h
      subst h
      refine ⟨hinv.cap_eq, ?_, hinv.task_inv, hinv.tid_lt, hinv.wg_eq, hinv.sends_le, ?_, ?_⟩
      · simpa [remaining] using hfiles
      · show (List.map (fun x => some x.2) xs).length ≤ (sends st.trace).length
        simp [hs]
      · show MainInv _
        unfold MainInv
        exact ⟨hwg, by simp [hs]⟩
  | returned r =>
    rw [hm] at h
    cases h

theorem inv_step {σ : Type} (convertFile : Action σ) (files : List GoString)
    (st st1 : PState σ) (tid : Nat) (hinv : Inv files st)
    (h : step convertFile st tid = some st1) : Inv files st1 := by
  cases tid with
  | zero => exact inv_stepMain files st st1 hinv h
  | succ i => exact inv_stepTask convertFile files st st1 i hinv h

theorem inv_runSched {σ : Type} (convertFile : Action σ) (files : List GoString) :
    ∀ (sched : List Nat) (st st1 : PState σ), Inv files st →
      runSched convertFile sched st = some st1 → Inv files st1 := by
  intro sched
  induction sched with
  | nil =>
    intro st st1 hinv h
    simp only [runSched, Option.some.injEq] at h
    rw [← h]; exact hinv
  | cons tid sched ih =>
    intro st st1 hinv h
    simp only [runSched] at h
    cases hs : step convertFile st tid with
    | none => rw [hs] at h; cases h
    | some st2 =>
      rw [hs] at h
      exact ih st2 st1 (inv_step convertFile files st st2 tid hinv hs) h

theorem total_live_of_done :
    ∀ (tasks : List Task), (∀ t ∈ tasks, t.pc = .done) → total livePc tasks = 0 := by
  intro tasks
  induction tasks with
  | nil => intro _; rfl
  | cons x xs ih =>
    intro h
    have hx : x.pc = .done := h x (List.mem_cons_self _ _)
    have := ih (fun t ht => h t (List.mem_cons_of_mem _ ht))
    simp only [total, List.map_cons, List.sum_cons, hx, livePc] at this ⊢
    omega

theorem tasks_length_le {σ : Type} (files : List GoString) (st : PState σ)
    (hinv : Inv files st) : st.tasks.length ≤ files.length := by
  have := congrArg List.length hinv.files_eq
  simp only [List.length_append, List.length_map] at this
  omega

/-- A goroutine that is about to send finds room in the open channel. -/
theorem send_has_room {σ : Type} (files : List GoString) (st : PState σ) (i : Nat) (t : Task)
    (err : GoError) (hinv : Inv files st) (ht : st.tasks[i]? = some t)
    (hpc : t.pc = .failed err) : st.errors.length < st.cap ∧ st.closed = false := by
  have hpos : 0 < st.wg := by
    have := total_pos livePc st.tasks i t ht
    rw [hpc] at this
    have h1 : livePc (.failed err) = 1 := rfl
    have := hinv.wg_eq
    omega
  obtain ⟨hc, he, _⟩ := MainInv_running st hinv.main_inv hpos
  refine ⟨?_, hc⟩
  have h1 := total_settled_lt st.tasks i t ht (by rw [hpc]; rfl)
  have h2 := hinv.sends_le
  have h3 := tasks_length_le files st hinv
  have h4 := hinv.cap_eq
  have h5 : st.errors.length = (sends st.trace).length := by rw [he]; simp
  omega

/-- A launched goroutine that has not finished can always take its next step. -/
theorem task_enabled {σ : Type} (convertFile : Action σ) (files : List GoString)
    (st : PState σ) (i : Nat) (t : Task) (hinv : Inv files st)
    (ht : st.tasks[i]? = some t) (hpc : t.pc ≠ .done) :
    ∃ st1, stepTask convertFile st i = some st1 := by
  unfold stepTask
  rw [ht]
  cases hp : t.pc with
  | start =>
    simp only [hp]
    cases convertFile st.world t.file with
    | mk w r => cases r <;> exact ⟨_, rfl⟩
  | failed err =>
    simp only [hp]
    rw [if_pos (send_has_room files st i t err hinv ht hp)]
    exact ⟨_, rfl⟩
  | exiting =>
    simp only [hp]
    have hpos : 0 < st.wg := by
      have := total_pos livePc st.tasks i t ht
      rw [hp] at this
      have h1 : livePc .exiting = 1 := rfl
      have := hinv.wg_eq
      omega
    rw [if_pos hpos]
    exact ⟨_, rfl⟩
  | done => exact absurd hp hpc

/-- Once every goroutine has finished, the calling goroutine can move until it has
returned. -/
theorem main_enabled {σ : Type} (files : List GoString) (st : PState σ) (hinv : Inv files st)
    (hdone : ∀ t ∈ st.tasks, t.pc = .done) (hm : ∀ r, st.main ≠ .returned r) :
    ∃ st1, stepMain st = some st1 := by
  have hwg : st.wg = 0 := by
    rw [hinv.wg_eq]; exact total_live_of_done st.tasks hdone
  have hmi := hinv.main_inv
  unfold MainInv at hmi
  unfold stepMain
  cases hmain : st.main with
  | spawning rest => cases rest <;> exact ⟨_, rfl⟩
  | waiting => simp only; rw [if_pos hwg]; exact ⟨_, rfl⟩
  | closing => exact ⟨_, rfl⟩
  | draining =>
    rw [hmain] at hmi
    simp only at hmi ⊢
    cases he : st.errors with
    | nil => simp only [hmi.1, if_true]; exact ⟨_, rfl⟩
    | cons x xs => cases x <;> exact ⟨_, rfl⟩
  | returned r => exact absurd hmain (hm r)

/-- No deadlock: a state whose calling goroutine has not returned can take a step. -/
theorem progress {σ : Type} (convertFile : Action σ) (files : List GoString) (st : PState σ)
    (hinv : Inv files st) (hm : ∀ r, st.main ≠ .returned r) :
    ∃ tid st1, step convertFile st tid = some st1 := by
  by_cases hdone : ∀ t ∈ st.tasks, t.pc = .done
  · obtain ⟨st1, h⟩ := main_enabled files st hinv hdone hm
    exact ⟨0, st1, h⟩
  · simp only [not_forall] at hdone
    obtain ⟨t, ht, hpc⟩ := hdone
    obtain ⟨i, hi, hget⟩ := List.getElem_of_mem ht
    have h1 : st.tasks[i]? = some t := by rw [List.getElem?_eq_getElem hi, hget]
    obtain ⟨st1, h⟩ := task_enabled convertFile files st i t hinv h1 hpc
    exact ⟨i + 1, st1, h⟩

theorem stepTask_decreases {σ : Type} (convertFile : Action σ) (st st1 : PState σ) (i : Nat)
    (h : stepTask convertFile st i = some st1) : stepsLeft st1 < stepsLeft st := by
  obtain ⟨t, ht, hcase⟩ := stepTask_cases convertFile st st1 i h
  rcases hcase with ⟨hpc, rfl⟩ | ⟨err, hpc, _, _, rfl⟩ | ⟨hpc, _, rfl⟩
  · have hl := total_set taskMeasure st.tasks i t t.file
      (pcAfter (convertFile st.world t.file).2) ht
    rw [hpc] at hl
    have h0 : taskMeasure .start = 4 := rfl
    have h1 : taskMeasure (pcAfter (convertFile st.world t.file).2) ≤ 3 := by
      cases (convertFile st.world t.file).2 <;> simp [pcAfter, taskMeasure]
    show mainMeasure st.main + total taskMeasure
        (st.tasks.set i ⟨t.file, pcAfter (convertFile st.world t.file).2⟩) + st.errors.length <
      mainMeasure st.main + total taskMeasure st.tasks + st.errors.length
    omega
  · have hl := total_set taskMeasure st.tasks i t t.file .exiting ht
    rw [hpc] at hl
    have h0 : taskMeasure (.failed err) = 3 := rfl
    have h1 : taskMeasure .exiting = 1 := rfl
    show mainMeasure st.main + total taskMeasure (st.tasks.set i ⟨t.file, .exiting⟩) +
        (st.errors ++ [some (errorfConvert t.file err)]).length <
      mainMeasure st.main + total taskMeasure st.tasks + st.errors.length
    simp only [List.length_append, List.length_singleton]
    omega
  · have hl := total_set taskMeasure st.tasks i t t.file .done ht
    rw [hpc] at hl
    have h0 : taskMeasure .exiting = 1 := rfl
    have h1 : taskMeasure .done = 0 := rfl
    show mainMeasure st.main + total taskMeasure (st.tasks.set i ⟨t.file, .done⟩) +
        st.errors.length <
      mainMeasure st.main + total taskMeasure st.tasks + st.errors.length
    omega

theorem stepMain_decreases {σ : Type} (st st1 : PState σ)
    (h : stepMain st = some st1) : stepsLeft st1 < stepsLeft st := by
  unfold stepMain at h
  unfold stepsLeft
  cases hm : st.main with
  | spawning rest =>
    rw [hm] at h
    cases rest with
    | nil =>
      simp only [Option.some.injEq] at h
      subst h
      simp [mainMeasure]
    | cons file rest =>
      simp only [Option.some.injEq] at h
      subst h
      simp only [mainMeasure, total_append, List.length_cons]
      have : total taskMeasure [⟨file, TaskPc.start⟩] = 4 := rfl
      omega
  | waiting =>
    rw [hm] at h
    simp only at h
    by_cases hwg : st.wg = 0
    · rw [if_pos hwg] at h
      simp only [Option.some.injEq] at h
      subst h
      simp [mainMeasure]
    · rw [if_neg hwg] at h
      cases h
  | closing =>
    rw [hm] at h
    simp only [Option.some.injEq] at h
    subst h
    simp [mainMeasure]
  | draining =>
    rw [hm] at h
    simp only at h
    cases he : st.errors with
    | nil =>
      rw [he] at h
      simp only at h
      by_cases hc : st.closed = true
      · rw [if_pos hc] at h
        simp only [Option.some.injEq] at h
        subst h
        simp [mainMeasure, he]
      · rw [if_neg hc] at h
        cases h
    | cons x xs =>
      rw [he] at h
      cases x with
      | some e =>
        simp only [Option.some.injEq] at h
        subst h
        simp only [mainMeasure, List.length_cons]
        omega
      | none =>
        simp only [Option.some.injEq] at h
        subst h
        simp only [hm, mainMeasure, List.length_cons]
        omega
  | returned r =>
    rw [hm] at h
    cases h

/-- Every step uses up at least one of the steps a state has left. -/
theorem step_decreases {σ : Type} (convertFile : Action σ) (st st1 : PState σ) (tid : Nat)
    (h : step convertFile st tid = some st1) : stepsLeft st1 < stepsLeft st := by
  cases tid with
  | zero => exact stepMain_decreases st st1 h
  | succ i => exact stepTask_decreases convertFile st st1 i h

theorem runSched_length {σ : Type} (convertFile : Action σ) :
    ∀ (sched : List Nat) (st st1 : PState σ), runSched convertFile sched st = some st1 →
      sched.length + stepsLeft st1 ≤ stepsLeft st := by
  intro sched
  induction sched with
  | nil =>
    intro st st1 h
    simp only [runSched, Option.some.injEq] at h
    rw [h]; simp
  | cons tid sched ih =>
    intro st st1 h
    simp only [runSched] at h
    cases hs : step convertFile st tid with
    | none => rw [hs] at h; cases h
    | some st2 =>
      rw [hs] at h
      have h1 := ih st2 st1 h
      have h2 := step_decreases convertFile st st2 tid hs
      simp only [List.length_cons]
      omega

theorem runSched_append {σ : Type} (convertFile : Action σ) :
    ∀ (a b : List Nat) (st st1 : PState σ), runSched convertFile a st = some st1 →
      runSched convertFile (a ++ b) st = runSched convertFile b st1 := by
  intro a
  induction a with
  | nil =>
    intro b st st1 h
    simp only [runSched, Option.some.injEq] at h
    rw [h]; rfl
  | cons tid a ih =>
    intro b st st1 h
    simp only [runSched, List.cons_append] at h ⊢
    cases hs : step convertFile st tid with
    | none => rw [hs] at h; cases h
    | some st2 =>
      rw [hs] at h
      simp only
      exact ih b st2 st1 h

/-- From every state that satisfies the invariant some schedule leads to a state in
which the calling goroutine has returned. -/
theorem completion {σ : Type} (convertFile : Action σ) (files : List GoString) :
    ∀ (n : Nat) (st : PState σ), stepsLeft st ≤ n → Inv files st →
      ∃ sched st1 r, runSched convertFile sched st = some st1 ∧ st1.main = .returned r := by
  intro n
  induction n with
  | zero =>
    intro st hn hinv
    by_cases hm : ∀ r, st.main ≠ .returned r
    · obtain ⟨tid, st1, h⟩ := progress convertFile files st hinv hm
      have := step_decreases convertFile st st1 tid h
      omega
    · simp only [not_forall, not_not] at hm
      obtain ⟨r, hr⟩ := hm
      exact ⟨[], st, r, rfl, hr⟩
  | succ n ih =>
    intro st hn hinv
    by_cases hm : ∀ r, st.main ≠ .returned r
    · obtain ⟨tid, st1, h⟩ := progress convertFile files st hinv hm
      have hlt := step_decreases convertFile st st1 tid h
      obtain ⟨sched, st2, r, h2, hr⟩ := ih st1 (by omega)
        (inv_step convertFile files st st1 tid hinv h)
      refine ⟨tid :: sched, st2, r, ?_, hr⟩
      simp only [runSched, h]
      exact h2
    · simp only [not_forall, not_not] at hm
      obtain ⟨r, hr⟩ := hm
      exact ⟨[], st, r, rfl, hr⟩

/-- When the calling goroutine has returned, one goroutine per file was launched and
all of them have finished. -/
theorem returned_all_done {σ : Type} (files : List GoString) (st : PState σ) (r : Option GoError)
    (hinv : Inv files st) (hr : st.main = .returned r) :
    st.tasks.map Task.file = files ∧ (∀ t ∈ st.tasks, t.pc = .done) ∧
      r = (sends st.trace).head?.map Prod.snd := by
  have hmi := hinv.main_inv
  have hf := hinv.files_eq
  unfold MainInv at hmi
  rw [hr] at hmi hf
  simp only [remaining, List.append_nil] at hf
  refine ⟨hf, ?_, hmi.2⟩
  apply total_live_zero
  rw [← hinv.wg_eq]
  exact hmi.1

theorem total_settled_le : ∀ l : List Task, total settledPc l ≤ l.length := by
  intro l
  induction l with
  | nil => simp [total]
  | cons y ys ihy =>
    have hy : settledPc y.pc ≤ 1 := by cases y.pc <;> simp [settledPc]
    simp only [total, List.map_cons, List.sum_cons, List.length_cons] at ihy ⊢
    omega

theorem mem_sends (tr : List Event) (i : Nat) (e : GoError) :
    (i, e) ∈ sends tr ↔ Event.send i e ∈ tr := by
  simp only [sends, List.mem_filterMap]
  constructor
  · rintro ⟨ev, hev, h⟩
    cases ev with
    | send j err =>
      simp only [Option.some.injEq, Prod.mk.injEq] at h
      rw [← h.1, ← h.2]; exact hev
    | call j f r => simp at h
    | exit j => simp at h
  · intro h
    exact ⟨_, h, rfl⟩

theorem mem_eventsOf (tr : List Event) (i : Nat) (ev : Event) :
    ev ∈ eventsOf i tr ↔ ev ∈ tr ∧ ev.tid = i := by
  simp [eventsOf, List.mem_filter]

theorem getElem?_of_map_file (tasks : List Task) (files : List GoString)
    (h : tasks.map Task.file = files) (i : Nat) :
    files[i]? = (tasks[i]?).map Task.file := by
  rw [← h, List.getElem?_map]

theorem eventsOf_sends_le {σ : Type} (files : List GoString) (st : PState σ) (hinv : Inv files st)
    (i : Nat) : ((eventsOf i st.trace).filter Event.isSend).length ≤ 1 := by
  cases ht : st.tasks[i]? with
  | none =>
    have hge : st.tasks.length ≤ i := by
      rcases Nat.lt_or_ge i st.tasks.length with hlt | hge
      · rw [List.getElem?_eq_getElem hlt] at ht; cases ht
      · exact hge
    have : eventsOf i st.trace = [] := by
      simp only [eventsOf, List.filter_eq_nil_iff]
      intro ev hev
      have := hinv.tid_lt ev hev
      simp
      omega
    rw [this]; simp
  | some t =>
    have h := hinv.task_inv i t ht
    cases hpc : t.pc with
    | start => rw [hpc] at h; simp only [TaskEvents] at h; rw [h]; simp
    | failed err =>
      rw [hpc] at h; simp only [TaskEvents] at h; rw [h]; simp [Event.isSend]
    | exiting =>
      rw [hpc] at h; simp only [TaskEvents] at h
      rcases h with h | ⟨e, h⟩ <;> rw [h] <;> simp [Event.isSend]
    | done =>
      rw [hpc] at h; simp only [TaskEvents] at h
      rcases h with h | ⟨e, h⟩ <;> rw [h] <;> simp [Event.isSend]

/-! ### Parallel result collection never blocks -/

/-- C10: in every state that any interleaving of `convertFilesParallel` reaches, each
goroutine has posted at most one outcome; the number of posted outcomes and the
length of the channel buffer stay within the capacity `len(files)`; a goroutine about
to send finds the channel open and not full; every launched goroutine that has not
finished can take its next step, so none is ever blocked; the run is at most
`5 * len(files) + 4` steps long; it can be continued to a state in which every file
has its goroutine, all of them have finished and the caller has returned; and a state
that can take no step is such a state. -/
theorem parallel_never_blocks {σ : Type} (convertFile : Action σ) (files : List GoString)
    (s : σ) (sched : List Nat) (st : PState σ)
    (h : runSched convertFile sched (initPar files s) = some st) :
    (∀ i, ((eventsOf i st.trace).filter Event.isSend).length ≤ 1) ∧
    (sends st.trace).length ≤ files.length ∧
    st.cap = files.length ∧
    st.errors.length ≤ st.cap ∧
    (∀ (i : Nat) (t : Task) (err : GoError), st.tasks[i]? = some t → t.pc = .failed err →
      st.errors.length < st.cap ∧ st.closed = false) ∧
    (∀ (i : Nat) (t : Task), st.tasks[i]? = some t → t.pc ≠ .done →
      ∃ st1, step convertFile st (i + 1) = some st1) ∧
    sched.length ≤ 5 * files.length + 4 ∧
    (∃ more st1 r, runSched convertFile (sched ++ more) (initPar files s) = some st1 ∧
      st1.main = .returned r ∧ st1.tasks.map Task.file = files ∧
      ∀ t ∈ st1.tasks, t.pc = .done) ∧
    ((∀ tid, step convertFile st tid = none) →
      (∃ r, st.main = .returned r) ∧ st.tasks.map Task.file = files ∧
      ∀ t ∈ st.tasks, t.pc = .done) := by
  have hinv : Inv files st := inv_runSched convertFile files sched _ st (inv_init files s) h
  have hsends : (sends st.trace).length ≤ files.length := by
    have h1 := hinv.sends_le
    have h2 := total_settled_le st.tasks
    have h3 := tasks_length_le files st hinv
    omega
  refine ⟨eventsOf_sends_le files st hinv, hsends, hinv.cap_eq, ?_, ?_, ?_, ?_, ?_, ?_⟩
  · have h1 := hinv.errors_le
    have h2 := hinv.cap_eq
    omega
  · intro i t err ht hpc
    exact send_has_room files st i t err hinv ht hpc
  · intro i t ht hpc
    exact task_enabled convertFile files st i t hinv ht hpc
  · have h1 := runSched_length convertFile sched _ st h
    have h2 : stepsLeft (initPar files s) = 5 * files.length + 4 := by
      simp [stepsLeft, initPar, mainMeasure, total]
    omega
  · obtain ⟨more, st1, r, h1, hr⟩ := completion convertFile files (stepsLeft st) st
      (Nat.le_refl _) hinv
    have hinv1 := inv_runSched convertFile files more st st1 hinv h1
    obtain ⟨hf, hd, _⟩ := returned_all_done files st1 r hinv1 hr
    refine ⟨more, st1, r, ?_, hr, hf, hd⟩
    rw [runSched_append convertFile sched more _ st h]
    exact h1
  · intro hstuck
    by_cases hm : ∀ r, st.main ≠ .returned r
    · obtain ⟨tid, st1, h1⟩ := progress convertFile files st hinv hm
      rw [hstuck tid] at h1
      cases h1
    · simp only [not_forall, not_not] at hm
      obtain ⟨r, hr⟩ := hm
      obtain ⟨hf, hd, _⟩ := returned_all_done files st r hinv hr
      exact ⟨⟨r, hr⟩, hf, hd⟩

/-- C10 in the example: after both goroutines were launched and the one for `b.md`
failed, that goroutine finds room in the channel and can send. -/
theorem parallel_never_blocks_witness :
    runSched exampleConvert [0, 0, 2] (initPar exampleFiles ()) = some exampleState ∧
    exampleState.errors.length < exampleState.cap ∧ exampleState.closed = false :=
  ⟨rfl, (parallel_never_blocks exampleConvert exampleFiles () [0, 0, 2] exampleState rfl).2.2.2.2.1
    1 ⟨"b.md".toList, .failed exampleBoom⟩ exampleBoom rfl rfl⟩

/-! ### The converter's own record of a parallel run -/

theorem callsLog_append (tr : List Event) (ev : Event) :
    callsLog (tr ++ [ev]) = callsLog tr ++ (match ev with
      | .call _ file r => [(file, r)]
      | _ => []) := by
  cases ev <;> simp [callsLog, List.filterMap_append]

theorem mem_callsLog (tr : List Event) (f : GoString) (r : Option GoError) :
    (f, r) ∈ callsLog tr ↔ ∃ i, Event.call i f r ∈ tr := by
  simp only [callsLog, List.mem_filterMap]
  constructor
  · rintro ⟨ev, hev, h⟩
    cases ev with
    | call j g q =>
      simp only [Option.some.injEq, Prod.mk.injEq] at h
      exact ⟨j, by rw [← h.1, ← h.2]; exact hev⟩
    | send j err => simp at h
    | exit j => simp at h
  · rintro ⟨i, h⟩
    exact ⟨_, h, rfl⟩

theorem startedFiles_append_start (tasks : List Task) (f : GoString) :
    startedFiles (tasks ++ [⟨f, .start⟩]) = startedFiles tasks := by
  simp [startedFiles, List.filterMap_append, startedPc]

theorem startedFiles_set_same :
    ∀ (tasks : List Task) (i : Nat) (t : Task) (pc : TaskPc), tasks[i]? = some t →
      startedPc t.pc = true → startedPc pc = true →
      startedFiles (tasks.set i ⟨t.file, pc⟩) = startedFiles tasks := by
  intro tasks
  induction tasks with
  | nil => intro i t pc h; simp at h
  | cons x xs ih =>
    intro i t pc h h1 h2
    cases i with
    | zero =>
      simp only [List.getElem?_cons_zero, Option.some.injEq] at h
      subst h
      simp [startedFiles, h1, h2]
    | succ i =>
      simp only [List.getElem?_cons_succ] at h
      have := ih i t pc h h1 h2
      simp only [startedFiles, List.set_cons_succ, List.filterMap_cons] at this ⊢
      rw [this]

theorem startedFiles_set_start :
    ∀ (tasks : List Task) (i : Nat) (t : Task) (pc : TaskPc), tasks[i]? = some t →
      t.pc = .start → startedPc pc = true →
      List.Perm (startedFiles (tasks.set i ⟨t.file, pc⟩)) (t.file :: startedFiles tasks) := by
  intro tasks
  induction tasks with
  | nil => intro i t pc h; simp at h
  | cons x xs ih =>
    intro i t pc h h1 h2
    cases i with
    | zero =>
      simp only [List.getElem?_cons_zero, Option.some.injEq] at h
      subst h
      have h0 : startedPc TaskPc.start = false := rfl
      simp only [startedFiles, List.set_cons_zero, List.filterMap_cons, h1, h2, h0]
      simp
    | succ i =>
      simp only [List.getElem?_cons_succ] at h
      have := ih i t pc h h1 h2
      simp only [startedFiles, List.set_cons_succ, List.filterMap_cons] at this ⊢
      cases hx : startedPc x.pc with
      | false => simpa [hx] using this
      | true =>
        simp only [hx, if_true]
        exact (List.Perm.cons x.file this).trans (List.Perm.swap _ _ _)

theorem startedFiles_of_done :
    ∀ (tasks : List Task), (∀ t ∈ tasks, t.pc = .done) →
      startedFiles tasks = tasks.map Task.file := by
  intro tasks
  induction tasks with
  | nil => intro _; rfl
  | cons x xs ih =>
    intro h
    have hx : x.pc = .done := h x (List.mem_cons_self _ _)
    have := ih (fun t ht => h t (List.mem_cons_of_mem _ ht))
    simp only [startedFiles, List.filterMap_cons, List.map_cons, hx, startedPc, if_true] at this ⊢
    rw [this]

theorem stepMain_frame {σ : Type} (st st1 : PState σ) (h : stepMain st = some st1) :
    st1.trace = st.trace ∧ st1.world = st.world ∧
      startedFiles st1.tasks = startedFiles st.tasks := by
  unfold stepMain at h
  cases hm : st.main with
  | spawning rest =>
    rw [hm] at h
    cases rest with
    | nil =>
      simp only [Option.some.injEq] at h
      subst h
      exact ⟨rfl, rfl, rfl⟩
    | cons file rest =>
      simp only [Option.some.injEq] at h
      subst h
      exact ⟨rfl, rfl, startedFiles_append_start st.tasks file⟩
  | waiting =>
    rw [hm] at h
    simp only at h
    by_cases hwg : st.wg = 0
    · rw [if_pos hwg] at h
      simp only [Option.some.injEq] at h
      subst h
      exact ⟨rfl, rfl, rfl⟩
    · rw [if_neg hwg] at h
      cases h
  | closing =>
    rw [hm] at h
    simp only [Option.some.injEq] at h
    subst h
    exact ⟨rfl, rfl, rfl⟩
  | draining =>
    rw [hm] at h
    simp only at h
    cases he : st.errors with
    | nil =>
      rw [he] at h
      simp only at h
      by_cases hc : st.closed = true
      · rw [if_pos hc] at h
        simp only [Option.some.injEq] at h
        subst h
        exact ⟨rfl, rfl, rfl⟩
      · rw [if_neg hc] at h
        cases h
    | cons x xs =>
      rw [he] at h
      cases x with
      | some e =>
        simp only [Option.some.injEq] at h
        subst h
        exact ⟨rfl, rfl, rfl⟩
      | none =>
        simp only [Option.some.injEq] at h
        subst h
        exact ⟨rfl, rfl, rfl⟩
  | returned r =>
    rw [hm] at h
    cases h

/-- The files of the calls in the trace are, up to order, the files of the goroutines
that are past their call. -/
theorem calls_perm_step {σ : Type} (convertFile : Action σ) (st st1 : PState σ) (tid : Nat)
    (hp : List.Perm ((callsLog st.trace).map Prod.fst) (startedFiles st.tasks))
    (h : step convertFile st tid = some st1) :
    List.Perm ((callsLog st1.trace).map Prod.fst) (startedFiles st1.tasks) := by
  cases tid with
  | zero =>
    obtain ⟨h1, _, h3⟩ := stepMain_frame st st1 h
    rw [h1, h3]
    exact hp
  | succ i =>
    obtain ⟨t, ht, hcase⟩ := stepTask_cases convertFile st st1 i h
    rcases hcase with ⟨hpc, rfl⟩ | ⟨err, hpc, _, _, rfl⟩ | ⟨hpc, _, rfl⟩
    · have hs : startedPc (pcAfter (convertFile st.world t.file).2) = true := by
        cases (convertFile st.world t.file).2 <;> rfl
      have h1 := startedFiles_set_start st.tasks i t _ ht hpc hs
      show List.Perm ((callsLog (st.trace ++ [_])).map Prod.fst)
        (startedFiles (st.tasks.set i ⟨t.file, pcAfter (convertFile st.world t.file).2⟩))
      rw [callsLog_append]
      simp only [List.map_append, List.map_cons, List.map_nil]
      exact ((List.perm_append_singleton _ _).trans (List.Perm.cons _ hp)).trans h1.symm
    · have h1 := startedFiles_set_same st.tasks i t .exiting ht (by rw [hpc]; rfl) rfl
      show List.Perm ((callsLog (st.trace ++ [_])).map Prod.fst)
        (startedFiles (st.tasks.set i ⟨t.file, .exiting⟩))
      rw [callsLog_append, h1]
      simpa using hp
    · have h1 := startedFiles_set_same st.tasks i t .done ht (by rw [hpc]; rfl) rfl
      show List.Perm ((callsLog (st.trace ++ [_])).map Prod.fst)
        (startedFiles (st.tasks.set i ⟨t.file, .done⟩))
      rw [callsLog_append, h1]
      simpa using hp

theorem calls_perm_runSched {σ : Type} (convertFile : Action σ) :
    ∀ (sched : List Nat) (st st1 : PState σ),
      List.Perm ((callsLog st.trace).map Prod.fst) (startedFiles st.tasks) →
      runSched convertFile sched st = some st1 →
      List.Perm ((callsLog st1.trace).map Prod.fst) (startedFiles st1.tasks) := by
  intro sched
  induction sched with
  | nil =>
    intro st st1 hp h
    simp only [runSched, Option.some.injEq] at h
    rw [← h]; exact hp
  | cons tid sched ih =>
    intro st st1 hp h
    simp only [runSched] at h
    cases hs : step convertFile st tid with
    | none => rw [hs] at h; cases h
    | some st2 =>
      rw [hs] at h
      exact ih st2 st1 (calls_perm_step convertFile st st2 tid hp hs) h

/-- Under a recording converter the record is the sequence of calls in the trace. -/
theorem record_step {σ : Type} (convertFile : Action σ)
    (st st1 : PState (σ × List (GoString × Option GoError))) (tid : Nat)
    (hl : st.world.2 = callsLog st.trace)
    (h : step (recording convertFile) st tid = some st1) :
    st1.world.2 = callsLog st1.trace := by
  cases tid with
  | zero =>
    obtain ⟨h1, h2, _⟩ := stepMain_frame st st1 h
    rw [h1, h2]
    exact hl
  | succ i =>
    obtain ⟨t, ht, hcase⟩ := stepTask_cases (recording convertFile) st st1 i h
    rcases hcase with ⟨hpc, rfl⟩ | ⟨err, hpc, _, _, rfl⟩ | ⟨hpc, _, rfl⟩
    · show (recording convertFile st.world t.file).1.2 = callsLog (st.trace ++ [_])
      rw [callsLog_append, ← hl]
      rfl
    · show st.world.2 = callsLog (st.trace ++ [_])
      rw [callsLog_append, ← hl]
      simp
    · show st.world.2 = callsLog (st.trace ++ [_])
      rw [callsLog_append, ← hl]
      simp

theorem record_runSched {σ : Type} (convertFile : Action σ) :
    ∀ (sched : List Nat) (st st1 : PState (σ × List (GoString × Option GoError))),
      st.world.2 = callsLog st.trace →
      runSched (recording convertFile) sched st = some st1 →
      st1.world.2 = callsLog st1.trace := by
  intro sched
  induction sched with
  | nil =>
    intro st st1 hp h
    simp only [runSched, Option.some.injEq] at h
    rw [← h]; exact hp
  | cons tid sched ih =>
    intro st st1 hp h
    simp only [runSched] at h
    cases hs : step (recording convertFile) st tid with
    | none => rw [hs] at h; cases h
    | some st2 =>
      rw [hs] at h
      exact ih st2 st1 (record_step convertFile st st2 tid hp hs) h

theorem stepMain_forget {σ : Type} (st : PState (σ × List (GoString × Option GoError))) :
    stepMain st.forget = (stepMain st).map PState.forget := by
  unfold stepMain
  simp only [PState.forget]
  cases st.main with
  | spawning rest => cases rest <;> rfl
  | waiting =>
    simp only
    by_cases hwg : st.wg = 0
    · rw [if_pos hwg, if_pos hwg]; rfl
    · rw [if_neg hwg, if_neg hwg]; rfl
  | closing => rfl
  | draining =>
    simp only
    cases st.errors with
    | nil =>
      simp only
      by_cases hc : st.closed = true
      · rw [if_pos hc, if_pos hc]; rfl
      · rw [if_neg hc, if_neg hc]; rfl
    | cons x xs => cases x <;> rfl
  | returned r => rfl

theorem stepTask_forget {σ : Type} (convertFile : Action σ)
    (st : PState (σ × List (GoString × Option GoError))) (i : Nat) :
    stepTask convertFile st.forget i =
      (stepTask (recording convertFile) st i).map PState.forget := by
  unfold stepTask
  simp only [PState.forget]
  cases st.tasks[i]? with
  | none => rfl
  | some t =>
    simp only
    cases t.pc with
    | start =>
      simp only
      have hrec : recording convertFile st.world t.file =
          (((convertFile st.world.1 t.file).1,
            st.world.2 ++ [(t.file, (convertFile st.world.1 t.file).2)]),
            (convertFile st.world.1 t.file).2) := rfl
      rw [hrec]
      cases convertFile st.world.1 t.file with
      | mk w r => cases r <;> rfl
    | failed err =>
      simp only
      by_cases hg : st.errors.length < st.cap ∧ st.closed = false
      · rw [if_pos hg, if_pos hg]; rfl
      · rw [if_neg hg, if_neg hg]; rfl
    | exiting =>
      simp only
      by_cases hg : 0 < st.wg
      · rw [if_pos hg, if_pos hg]; rfl
      · rw [if_neg hg, if_neg hg]; rfl
    | done => rfl

theorem runSched_forget {σ : Type} (convertFile : Action σ) :
    ∀ (sched : List Nat) (st : PState (σ × List (GoString × Option GoError))),
      runSched convertFile sched st.forget =
        (runSched (recording convertFile) sched st).map PState.forget := by
  intro sched
  induction sched with
  | nil => intro st; rfl
  | cons tid sched ih =>
    intro st
    have hstep : step convertFile st.forget tid =
        (step (recording convertFile) st tid).map PState.forget := by
      cases tid with
      | zero => exact stepMain_forget st
      | succ i => exact stepTask_forget convertFile st i
    simp only [runSched, hstep]
    cases step (recording convertFile) st tid with
    | none => rfl
    | some st1 => exact ih st1

/-- Recording the converter's calls changes neither the result of the parallel driver
nor the world it leaves behind. -/
theorem convertFilesParallel_forget {σ : Type} (convertFile : Action σ)
    (files : List GoString) (sched : List Nat) (s : σ) :
    convertFilesParallel convertFile files sched s =
      (convertFilesParallel (recording convertFile) files sched (s, [])).map
        (fun x => (x.1.1, x.2)) := by
  unfold convertFilesParallel
  have h := runSched_forget convertFile sched (initPar files (s, []))
  have h0 : (initPar files (s, ([] : List (GoString × Option GoError)))).forget =
      initPar files s := rfl
  rw [h0] at h
  rw [h]
  cases runSched (recording convertFile) sched (initPar files (s, [])) with
  | none => rfl
  | some st =>
    simp only [Option.map_some', PState.forget]
    cases st.main <;> rfl

/-! ### The step at which the caller returns -/

theorem stepTask_main {σ : Type} (convertFile : Action σ) (st st1 : PState σ) (i : Nat)
    (h : stepTask convertFile st i = some st1) : st1.main = st.main := by
  obtain ⟨t, _, hcase⟩ := stepTask_cases convertFile st st1 i h
  rcases hcase with ⟨_, rfl⟩ | ⟨err, _, _, _, rfl⟩ | ⟨_, _, rfl⟩ <;> rfl

/-- The caller returns only by a step out of the loop over the channel, and with the
first value of the buffer, nil when the buffer is empty. -/
theorem stepMain_returned {σ : Type} (st st1 : PState σ) (r : Option GoError)
    (h : stepMain st = some st1) (hr : st1.main = .returned r)
    (hn : ∀ r0, st.main ≠ .returned r0) :
    st.main = .draining ∧ st.errors.head?.join = r := by
  unfold stepMain at h
  cases hm : st.main with
  | spawning rest =>
    rw [hm] at h
    cases rest with
    | nil =>
      simp only [Option.some.injEq] at h
      subst h
      cases hr
    | cons file rest =>
      simp only [Option.some.injEq] at h
      subst h
      cases hr
  | waiting =>
    rw [hm] at h
    simp only at h
    by_cases hwg : st.wg = 0
    · rw [if_pos hwg] at h
      simp only [Option.some.injEq] at h
      subst h
      cases hr
    · rw [if_neg hwg] at h
      cases h
  | closing =>
    rw [hm] at h
    simp only [Option.some.injEq] at h
    subst h
    cases hr
  | draining =>
    refine ⟨rfl, ?_⟩
    rw [hm] at h
    simp only at h
    cases he : st.errors with
    | nil =>
      rw [he] at h
      simp only at h
      by_cases hc : st.closed = true
      · rw [if_pos hc] at h
        simp only [Option.some.injEq] at h
        subst h
        simp only [MainPc.returned.injEq] at hr
        rw [← hr]; rfl
      · rw [if_neg hc] at h
        cases h
    | cons x xs =>
      rw [he] at h
      cases x with
      | some e =>
        simp only [Option.some.injEq] at h
        subst h
        simp only [MainPc.returned.injEq] at hr
        rw [← hr]; rfl
      | none =>
        simp only [Option.some.injEq] at h
        subst h
        simp [hm] at hr
  | returned r0 => exact absurd hm (hn r0)

theorem returned_stable {σ : Type} (convertFile : Action σ) :
    ∀ (sched : List Nat) (st0 st : PState σ) (r : Option GoError),
      runSched convertFile sched st0 = some st → st0.main = .returned r →
      st.main = .returned r := by
  intro sched
  induction sched with
  | nil =>
    intro st0 st r h hr
    simp only [runSched, Option.some.injEq] at h
    rw [← h]; exact hr
  | cons tid sched ih =>
    intro st0 st r h hr
    simp only [runSched] at h
    cases hs : step convertFile st0 tid with
    | none => rw [hs] at h; cases h
    | some sa =>
      rw [hs] at h
      cases tid with
      | zero =>
        have hs2 : stepMain st0 = some sa := hs
        unfold stepMain at hs2
        rw [hr] at hs2
        cases hs2
      | succ i =>
        have := stepTask_main convertFile st0 sa i hs
        exact ih sa st r h (by rw [this]; exact hr)

/-- A run that ends with the caller returned passes through a state in which the
caller is in the loop over the channel, and the returned value is the first value of
the channel buffer in that state, nil when the buffer is empty. -/
theorem last_drain {σ : Type} (convertFile : Action σ) :
    ∀ (sched : List Nat) (st0 st : PState σ) (r : Option GoError),
      runSched convertFile sched st0 = some st → st.main = .returned r →
      (∀ r0, st0.main ≠ .returned r0) →
      ∃ pre post st1, sched = pre ++ 0 :: post ∧
        runSched convertFile pre st0 = some st1 ∧ st1.main = .draining ∧
        st1.errors.head?.join = r := by
  intro sched
  induction sched with
  | nil =>
    intro st0 st r h hr hn
    simp only [runSched, Option.some.injEq] at h
    subst h
    exact absurd hr (hn r)
  | cons tid sched ih =>
    intro st0 st r h hr hn
    simp only [runSched] at h
    cases hs : step convertFile st0 tid with
    | none => rw [hs] at h; cases h
    | some sa =>
      rw [hs] at h
      by_cases hsa : ∀ r0, sa.main ≠ .returned r0
      · obtain ⟨pre, post, st1, hsched, hrun, hd, hres⟩ := ih sa st r h hr hsa
        refine ⟨tid :: pre, post, st1, by rw [hsched]; rfl, ?_, hd, hres⟩
        simp only [runSched, hs]
        exact hrun
      · simp only [not_forall, not_not] at hsa
        obtain ⟨r1, hr1⟩ := hsa
        have hst := returned_stable convertFile sched sa st r1 h hr1
        rw [hr] at hst
        simp only [MainPc.returned.injEq] at hst
        subst hst
        cases tid with
        | zero =>
          obtain ⟨hd, hres⟩ := stepMain_returned st0 sa r hs hr1 hn
          exact ⟨[], sched, st0, rfl, rfl, hd, hres⟩
        | succ i =>
          have := stepTask_main convertFile st0 sa i hs
          rw [hr1] at this
          exact absurd this.symm (hn r)

/-! ### The contract of the parallel driver -/

theorem done_events {σ : Type} (files : List GoString) (st : PState σ) (hinv : Inv files st)
    (hdone : ∀ t ∈ st.tasks, t.pc = .done) (i : Nat) (t : Task) (ht : st.tasks[i]? = some t) :
    eventsOf i st.trace = [.call i t.file none, .exit i] ∨
      ∃ err, eventsOf i st.trace =
        [.call i t.file (some err), .send i (errorfConvert t.file err), .exit i] := by
  have h := hinv.task_inv i t ht
  have hi := getElem?_lt st.tasks i t ht
  have hmem : t ∈ st.tasks := by
    rw [List.getElem?_eq_getElem hi] at ht
    rw [← Option.some.inj ht]
    exact List.getElem_mem hi
  rw [hdone t hmem] at h
  exact h

theorem task_of_event {σ : Type} (files : List GoString) (st : PState σ) (hinv : Inv files st)
    (ev : Event) (hev : ev ∈ st.trace) :
    ∃ t, st.tasks[ev.tid]? = some t ∧ ev ∈ eventsOf ev.tid st.trace := by
  have hlt := hinv.tid_lt ev hev
  exact ⟨st.tasks[ev.tid], List.getElem?_eq_getElem hlt, (mem_eventsOf _ _ _).mpr ⟨hev, rfl⟩⟩

/-- What the trace of a returned run holds: one call per position of the file list,
on the file at that position, and for nothing else; an exit of every goroutine; a
failed call exactly when the returned error is not nil; and the returned error as the
first one sent, by the goroutine of a file whose call failed. -/
theorem parallel_trace_contract {σ : Type} (convertFile : Action σ)
    (files : List GoString) (s : σ) :
    (∃ sched w r, convertFilesParallel convertFile files sched s = some (w, r)) ∧
    ∀ sched w r, convertFilesParallel convertFile files sched s = some (w, r) →
      ∃ st, runSched convertFile sched (initPar files s) = some st ∧
        st.main = .returned r ∧ st.world = w ∧
        (∀ (i : Nat) (f : GoString), files[i]? = some f →
          ∃ res, (eventsOf i st.trace).filter Event.isCall = [.call i f res]) ∧
        (∀ ev ∈ st.trace, ev.tid < files.length) ∧
        (∀ t ∈ st.tasks, t.pc = .done) ∧
        (∀ i, i < files.length → Event.exit i ∈ st.trace) ∧
        (r = none ↔ ∀ (i : Nat) (f : GoString) (e : GoError),
          Event.call i f (some e) ∉ st.trace) ∧
        (∀ e, r = some e → ∃ (i : Nat) (f : GoString) (cause : GoError) (rest : List (Nat × GoError)),
          sends st.trace = (i, e) :: rest ∧ files[i]? = some f ∧
          e = errorfConvert f cause ∧ Event.call i f (some cause) ∈ st.trace ∧
          e.Error = msgFailedToConvert ++ f ++ [':', ' '] ++ cause.Error ∧
          e.Unwrap = some cause) := by
  constructor
  · obtain ⟨sched, st1, r, h1, hr⟩ := completion convertFile files
      (stepsLeft (initPar files s)) (initPar files s) (Nat.le_refl _) (inv_init files s)
    refine ⟨sched, st1.world, r, ?_⟩
    simp [convertFilesParallel, h1, hr]
  · intro sched w r h
    unfold convertFilesParallel at h
    cases hrun : runSched convertFile sched (initPar files s) with
    | none => rw [hrun] at h; cases h
    | some st =>
      rw [hrun] at h
      simp only at h
      have hmain : st.main = .returned r ∧ st.world = w := by
        cases hm : st.main <;> rw [hm] at h <;> simp at h
        exact ⟨by rw [h.2], h.1⟩
      obtain ⟨hr, hw⟩ := hmain
      have hinv : Inv files st :=
        inv_runSched convertFile files sched _ st (inv_init files s) hrun
      obtain ⟨hf, hdone, hres⟩ := returned_all_done files st r hinv hr
      have hlen : st.tasks.length = files.length := by
        rw [← hf, List.length_map]
      have hfile : ∀ (i : Nat) (t : Task), st.tasks[i]? = some t →
          files[i]? = some t.file := by
        intro i t ht
        rw [getElem?_of_map_file st.tasks files hf i, ht]
        rfl
      -- a send in the trace comes from a goroutine whose call failed
      have hsend : ∀ (i : Nat) (e : GoError), Event.send i e ∈ st.trace →
          ∃ t cause, st.tasks[i]? = some t ∧ e = errorfConvert t.file cause ∧
            Event.call i t.file (some cause) ∈ st.trace := by
        intro i e he
        obtain ⟨t, ht, hmem⟩ := task_of_event files st hinv _ he
        simp only [Event.tid] at ht hmem
        rcases done_events files st hinv hdone i t ht with hev | ⟨err, hev⟩
        · rw [hev] at hmem
          simp at hmem
        · have hcall : Event.call i t.file (some err) ∈ eventsOf i st.trace := by
            rw [hev]; simp
          rw [hev] at hmem
          simp at hmem
          exact ⟨t, err, ht, hmem, ((mem_eventsOf _ _ _).mp hcall).1⟩
      -- a failed call in the trace is followed by a send
      have hcallsend : ∀ (i : Nat) (f : GoString) (e : GoError),
          Event.call i f (some e) ∈ st.trace → ∃ e1, Event.send i e1 ∈ st.trace := by
        intro i f e he
        obtain ⟨t, ht, hmem⟩ := task_of_event files st hinv _ he
        simp only [Event.tid] at ht hmem
        rcases done_events files st hinv hdone i t ht with hev | ⟨err, hev⟩
        · rw [hev] at hmem
          simp at hmem
        · have hs : Event.send i (errorfConvert t.file err) ∈ eventsOf i st.trace := by
            rw [hev]; simp
          exact ⟨_, ((mem_eventsOf _ _ _).mp hs).1⟩
      refine ⟨st, rfl, hr, hw, ?_, ?_, hdone, ?_, ?_, ?_⟩
      · intro i f hi
        rw [getElem?_of_map_file st.tasks files hf i] at hi
        cases ht : st.tasks[i]? with
        | none => rw [ht] at hi; cases hi
        | some t =>
          rw [ht] at hi
          simp only [Option.map_some', Option.some.injEq] at hi
          subst hi
          rcases done_events files st hinv hdone i t ht with hev | ⟨err, hev⟩
          · exact ⟨none, by rw [hev]; simp [Event.isCall]⟩
          · exact ⟨some err, by rw [hev]; simp [Event.isCall]⟩
      · intro ev hev
        rw [← hlen]
        exact hinv.tid_lt ev hev
      · intro i hi
        have hi2 : i < st.tasks.length := by rw [hlen]; exact hi
        have ht : st.tasks[i]? = some st.tasks[i] := List.getElem?_eq_getElem hi2
        have hx : Event.exit i ∈ eventsOf i st.trace := by
          rcases done_events files st hinv hdone i _ ht with hev | ⟨err, hev⟩ <;>
            rw [hev] <;> simp
        exact ((mem_eventsOf _ _ _).mp hx).1
      · constructor
        · intro hnone i f e hcall
          obtain ⟨e1, hs⟩ := hcallsend i f e hcall
          have := (mem_sends st.trace i e1).mpr hs
          rw [hnone] at hres
          cases hsd : sends st.trace with
          | nil => rw [hsd] at this; cases this
          | cons x xs => rw [hsd] at hres; simp at hres
        · intro hno
          cases hsd : sends st.trace with
          | nil => rw [hres, hsd]; rfl
          | cons x xs =>
            have hx : (x.1, x.2) ∈ sends st.trace := by rw [hsd]; simp
            obtain ⟨t, cause, _, _, hcall⟩ := hsend x.1 x.2 ((mem_sends _ _ _).mp hx)
            exact absurd hcall (hno _ _ _)
      · intro e he
        cases hsd : sends st.trace with
        | nil => rw [hres, hsd] at he; cases he
        | cons x xs =>
          rw [hres, hsd] at he
          simp only [List.head?_cons, Option.map_some', Option.some.injEq] at he
          have hx : (x.1, e) ∈ sends st.trace := by rw [hsd, ← he]; simp
          obtain ⟨t, cause, ht, hwrap, hcall⟩ := hsend x.1 e ((mem_sends _ _ _).mp hx)
          refine ⟨x.1, t.file, cause, xs, ?_, hfile x.1 t ht, hwrap, hcall, ?_, ?_⟩
          · rw [← he]
          · rw [hwrap]; rfl
          · rw [hwrap]; rfl

/-- C2: some schedule makes `convertFilesParallel` return.  Under every schedule,
recording the converter's invocations changes neither the returned error nor the
world; and when the driver returns, the converter's own record holds every file of
the list exactly once (it is a permutation of the list), whichever files failed; the
returned error is nil exactly when no recorded invocation failed; the caller reached
the loop over the channel only when every goroutine had finished and the record was
already complete, and it returns the first value of the channel buffer at that moment,
the buffer holding the wrapped errors in the order they were sent; a returned error
is `failed to convert <file>: <cause>` for a recorded invocation of `<file>` that
failed with `<cause>`, and it is the first error sent. -/
theorem convertFilesParallel_contract {σ : Type} (convertFile : Action σ)
    (files : List GoString) (s : σ) :
    (∃ sched w r, convertFilesParallel convertFile files sched s = some (w, r)) ∧
    ∀ sched : List Nat,
      convertFilesParallel convertFile files sched s =
        (convertFilesParallel (recording convertFile) files sched (s, [])).map
          (fun x => (x.1.1, x.2)) ∧
      ∀ (w : σ) (log : List (GoString × Option GoError)) (r : Option GoError),
        convertFilesParallel (recording convertFile) files sched (s, []) =
          some ((w, log), r) →
        List.Perm (log.map Prod.fst) files ∧
        (r = none ↔ ∀ q ∈ log, q.2 = none) ∧
        (∀ e, r = some e → ∃ (f : GoString) (cause : GoError),
          (f, some cause) ∈ log ∧ e = errorfConvert f cause ∧
          e.Error = msgFailedToConvert ++ f ++ [':', ' '] ++ cause.Error ∧
          e.Unwrap = some cause) ∧
        (∃ (pre post : List Nat) (st0 : PState (σ × List (GoString × Option GoError))),
          sched = pre ++ 0 :: post ∧
          runSched (recording convertFile) pre (initPar files (s, [])) = some st0 ∧
          st0.main = .draining ∧ st0.closed = true ∧
          (∀ t ∈ st0.tasks, t.pc = .done) ∧ st0.tasks.map Task.file = files ∧
          List.Perm (st0.world.2.map Prod.fst) files ∧
          st0.errors = (sends st0.trace).map (fun x => some x.2) ∧
          st0.errors.head?.join = r) ∧
        ∃ st, runSched (recording convertFile) sched (initPar files (s, [])) = some st ∧
          st.main = .returned r ∧ st.world = (w, log) ∧
          log = callsLog st.trace ∧
          (∀ (i : Nat) (f : GoString), files[i]? = some f →
            ∃ res, (eventsOf i st.trace).filter Event.isCall = [.call i f res]) ∧
          (∀ ev ∈ st.trace, ev.tid < files.length) ∧
          (∀ t ∈ st.tasks, t.pc = .done) ∧
          (∀ i, i < files.length → Event.exit i ∈ st.trace) ∧
          (r = none ↔ ∀ (i : Nat) (f : GoString) (e : GoError),
            Event.call i f (some e) ∉ st.trace) ∧
          (∀ e, r = some e → ∃ (i : Nat) (f : GoString) (cause : GoError)
              (rest : List (Nat × GoError)),
            sends st.trace = (i, e) :: rest ∧ files[i]? = some f ∧
            e = errorfConvert f cause ∧ Event.call i f (some cause) ∈ st.trace ∧
            e.Error = msgFailedToConvert ++ f ++ [':', ' '] ++ cause.Error ∧
            e.Unwrap = some cause) := by
  refine ⟨(parallel_trace_contract convertFile files s).1, ?_⟩
  intro sched
  refine ⟨convertFilesParallel_forget convertFile files sched s, ?_⟩
  intro w log r h
  obtain ⟨st, hrun, hr, hw, h1, h2, h3, h4, h5, h6⟩ :=
    (parallel_trace_contract (recording convertFile) files (s, [])).2 sched (w, log) r h
  have hinit : Inv files (initPar files (s, ([] : List (GoString × Option GoError)))) :=
    inv_init files (s, [])
  have hinv : Inv files st := inv_runSched (recording convertFile) files sched _ st hinit hrun
  obtain ⟨hf, hdone, _⟩ := returned_all_done files st r hinv hr
  have hrec : st.world.2 = callsLog st.trace :=
    record_runSched convertFile sched _ st rfl hrun
  have hlog : log = callsLog st.trace := by
    rw [← hrec, hw]
  have hperm : List.Perm ((callsLog st.trace).map Prod.fst) (startedFiles st.tasks) :=
    calls_perm_runSched (recording convertFile) sched (initPar files (s, [])) st
      (List.Perm.refl []) hrun
  have hpermf : List.Perm (log.map Prod.fst) files := by
    rw [hlog]
    rw [startedFiles_of_done st.tasks hdone, hf] at hperm
    exact hperm
  refine ⟨hpermf, ?_, ?_, ?_, st, hrun, hr, hw, hlog, h1, h2, h3, h4, h5, h6⟩
  · rw [h5, hlog]
    constructor
    · intro hno q hq
      cases hq2 : q.2 with
      | none => rfl
      | some e =>
        have hmem : (q.1, some e) ∈ callsLog st.trace := by rw [← hq2]; exact hq
        obtain ⟨i, hi⟩ := (mem_callsLog _ _ _).mp hmem
        exact absurd hi (hno i q.1 e)
    · intro hall i f e hcall
      have := hall (f, some e) ((mem_callsLog _ _ _).mpr ⟨i, hcall⟩)
      cases this
  · intro e he
    obtain ⟨i, f, cause, rest, _, _, hwrap, hcall, hmsg, hun⟩ := h6 e he
    refine ⟨f, cause, ?_, hwrap, hmsg, hun⟩
    rw [hlog]
    exact (mem_callsLog _ _ _).mpr ⟨i, hcall⟩
  · obtain ⟨pre, post, st0, hsched, hrun0, hd, hres⟩ :=
      last_drain (recording convertFile) sched _ st r hrun hr (by intro r0 h0; cases h0)
    have hinv0 : Inv files st0 :=
      inv_runSched (recording convertFile) files pre _ st0 hinit hrun0
    have hmi := hinv0.main_inv
    unfold MainInv at hmi
    rw [hd] at hmi
    simp only at hmi
    obtain ⟨hcl, herr, hwg⟩ := hmi
    have hdone0 : ∀ t ∈ st0.tasks, t.pc = .done := by
      apply total_live_zero
      rw [← hinv0.wg_eq]
      exact hwg
    have hf0 : st0.tasks.map Task.file = files := by
      have := hinv0.files_eq
      rw [hd] at this
      simpa [remaining] using this
    have hrec0 : st0.world.2 = callsLog st0.trace :=
      record_runSched convertFile pre _ st0 rfl hrun0
    have hperm0 : List.Perm ((callsLog st0.trace).map Prod.fst) (startedFiles st0.tasks) :=
      calls_perm_runSched (recording convertFile) pre (initPar files (s, [])) st0
        (List.Perm.refl []) hrun0
    rw [startedFiles_of_done st0.tasks hdone0, hf0, ← hrec0] at hperm0
    exact ⟨pre, post, st0, hsched, hrun0, hd, hcl, hdone0, hf0, hperm0, herr, hres⟩

/-- C2 in the example, where the goroutine of `b.md` runs to its end before the one
of `a.md`: the converter records `b.md` and then `a.md`, a permutation of the list,
and the driver returns the wrapped error of `b.md`. -/
theorem convertFilesParallel_contract_witness :
    convertFilesParallel (recording exampleConvert) exampleFiles
        [0, 0, 0, 2, 2, 2, 1, 1, 0, 0, 0] ((), []) =
      some (((), [("b.md".toList, some exampleBoom), ("a.md".toList, none)]),
        some (errorfConvert "b.md".toList exampleBoom)) ∧
    List.Perm ["b.md".toList, "a.md".toList] exampleFiles :=
  ⟨by decide,
    (((convertFilesParallel_contract exampleConvert exampleFiles ()).2
      [0, 0, 0, 2, 2, 2, 1, 1, 0, 0, 0]).2 ()
      [("b.md".toList, some exampleBoom), ("a.md".toList, none)]
      (some (errorfConvert "b.md".toList exampleBoom)) (by decide)).1⟩

end MdToPdf
